import Mathlib

/-!
Verification development for the MC static analyzer
(`src/ast_nodes.py`, `src/cfg.py`, `src/cfg_analysis.py`, `src/semantic.py`,
`src/pipeline.py`), shallowly embedded in Lean.

Conventions of the embedding:
* Python classes become inductives / structures with the same field names
  (snake_case turned into lowerCamelCase).
* Basic blocks are identified by their creation index (`Nat`); the debug-only
  `name` string of `BasicBlock` is omitted.  `entry` is always id 0 and
  `exit` id 1, exactly as `CFGBuilder.build` creates them.
* The per-block `out_edges` / `in_edges` lists of the Python code are
  recovered from one chronological edge list: `_connect` appends the new edge
  to both `src.out_edges` and `dst.in_edges`, so filtering the chronological
  list by source (resp. target) reproduces both lists in order.
* Python `set` becomes `Finset`, Python `dict` for the zero analysis becomes
  an association list (`ZState`) with Python's insertion-order update
  semantics.
-/

namespace MiniC

/-- Literal values: `Literal.value : Union[int, bool]` in `ast_nodes.py`. -/
inductive LitVal where
  | int (n : Int)
  | bool (b : Bool)
deriving DecidableEq, Repr

/-- Expressions of `ast_nodes.py` (source positions and the mutable
`inferred_type` slot are not used by the CFG analyses and are omitted). -/
inductive Expr where
  | literal (value : LitVal)
  | varExpr (name : String)
  | callExpr (fname : String) (arguments : List Expr)
  | binaryExpr (left : Expr) (op : String) (right : Expr)
  | unaryExpr (op : String) (right : Expr)

/-- Statements of `ast_nodes.py`.  A `Block` is a plain statement list; the
nested-`Block` statement is `blockStmt`.  `ReturnStmt.value` is non-optional,
matching the dataclass and the AST contract. -/
inductive Stmt where
  | varDecl (ty : String) (name : String) (value : Option Expr)
  | assign (name : String) (value : Expr)
  | ifStmt (condition : Expr) (thenBody : List Stmt) (elseBody : Option (List Stmt))
  | whileStmt (condition : Expr) (body : List Stmt)
  | returnStmt (value : Expr)
  | printStmt (value : Expr)
  | blockStmt (statements : List Stmt)

/-- `CFGEdge` from `cfg.py`: directed edge, optionally carrying the branch
condition and its polarity. -/
structure CFGEdge where
  src : Nat
  dst : Nat
  cond : Option Expr
  assumeTrue : Option Bool

/-- `ControlFlowGraph` from `cfg.py`.  Blocks are the ids `0 .. nblocks-1` in
creation order; `stmts` lists each block's statements; `edges` is the
chronological list of all `_connect` calls. -/
structure CFG where
  nblocks : Nat
  entry : Nat
  exit : Nat
  stmts : List (List Stmt)
  edges : List CFGEdge

/-- Statements of block `b` (`BasicBlock.statements`). -/
def CFG.stmtsOf (g : CFG) (b : Nat) : List Stmt := g.stmts.getD b []

/-- `BasicBlock.out_edges`: edges leaving `b`, in the order `_connect`
appended them. -/
def CFG.outEdges (g : CFG) (b : Nat) : List CFGEdge := g.edges.filter (·.src = b)

/-- `BasicBlock.in_edges`: edges entering `b`, in the order `_connect`
appended them. -/
def CFG.inEdges (g : CFG) (b : Nat) : List CFGEdge := g.edges.filter (·.dst = b)

/-- `BasicBlock.successors` = `[e.dst for e in out_edges]`. -/
def CFG.successors (g : CFG) (b : Nat) : List Nat := (g.outEdges b).map (·.dst)

/-- `BasicBlock.predecessors` = `[e.src for e in in_edges]`. -/
def CFG.predecessors (g : CFG) (b : Nat) : List Nat := (g.inEdges b).map (·.src)

/-- `ControlFlowGraph.new_block`: append a fresh empty block, returning its id. -/
def CFG.newBlock (g : CFG) : CFG × Nat :=
  ({ g with nblocks := g.nblocks + 1, stmts := g.stmts ++ [[]] }, g.nblocks)

/-- `current.statements.append(stmt)`. -/
def CFG.appendStmt (g : CFG) (b : Nat) (s : Stmt) : CFG :=
  { g with stmts := g.stmts.set b (g.stmts.getD b [] ++ [s]) }

/-- `CFGBuilder._connect`: create an edge and register it. -/
def CFG.connect (g : CFG) (src dst : Nat) (cond : Option Expr := none)
    (assumeTrue : Option Bool := none) : CFG :=
  { g with edges := g.edges ++ [⟨src, dst, cond, assumeTrue⟩] }

mutual

/-- `CFGBuilder._build_stmt` (with the concrete builders
`_build_simple`, `_build_return`, `_build_if`, `_build_while` inlined,
each following the Python source line by line).  Returns the updated graph
and the block where control continues, or `none` when the fall-through path
terminated. -/
def buildStmt (s : Stmt) (g : CFG) (current : Nat) : CFG × Option Nat :=
  match s with
  | .varDecl t n v => (g.appendStmt current (.varDecl t n v), some current)
  | .assign n v => (g.appendStmt current (.assign n v), some current)
  | .printStmt v => (g.appendStmt current (.printStmt v), some current)
  | .returnStmt v =>
      -- `_build_return`: append, connect to the function exit, terminate.
      let g := g.appendStmt current (.returnStmt v)
      (g.connect current g.exit, none)
  | .ifStmt cond thenBody elseBody =>
      -- `_build_if`
      let g := g.appendStmt current (.ifStmt cond thenBody elseBody)
      let (g, thenBlock) := g.newBlock
      let (g, joinBlock) := g.newBlock
      let g := g.connect current thenBlock (some cond) (some true)
      let (g, endThen) := buildBlock thenBody g thenBlock
      match elseBody with
      | some els =>
          let (g, elseBlock) := g.newBlock
          let g := g.connect current elseBlock (some cond) (some false)
          let (g, endElse) := buildBlock els g elseBlock
          let g := match endThen with
            | some e => g.connect e joinBlock
            | none => g
          let g := match endElse with
            | some e => g.connect e joinBlock
            | none => g
          (g, some joinBlock)
      | none =>
          let g := g.connect current joinBlock (some cond) (some false)
          let g := match endThen with
            | some e => g.connect e joinBlock
            | none => g
          (g, some joinBlock)
  | .whileStmt cond body =>
      -- `_build_while`
      let (g, condBlock) := g.newBlock
      let (g, bodyBlock) := g.newBlock
      let (g, afterBlock) := g.newBlock
      let g := g.connect current condBlock
      let g := g.appendStmt condBlock (.whileStmt cond body)
      let g := g.connect condBlock bodyBlock (some cond) (some true)
      let g := g.connect condBlock afterBlock (some cond) (some false)
      let (g, endBody) := buildBlock body g bodyBlock
      let g := match endBody with
        | some e => g.connect e condBlock
        | none => g
      (g, some afterBlock)
  | .blockStmt stmts => buildBlock stmts g current

/-- `CFGBuilder._build_block`: thread the current block through the
statement list; stop as soon as a statement terminates the path. -/
def buildBlock (stmts : List Stmt) (g : CFG) (current : Nat) : CFG × Option Nat :=
  match stmts with
  | [] => (g, some current)
  | s :: rest =>
      match buildStmt s g current with
      | (g', none) => (g', none)
      | (g', some c') => buildBlock rest g' c'

end

/-- The graph `CFGBuilder.build` starts from: `entry` (id 0) and `exit`
(id 1) freshly created, no edges. -/
def emptyCFG : CFG :=
  { nblocks := 2, entry := 0, exit := 1, stmts := [[], []], edges := [] }

/-- `CFGBuilder.build`: build the body from `entry`, and connect a
non-terminated tail to `exit`. -/
def build (body : List Stmt) : CFG :=
  match buildBlock body emptyCFG 0 with
  | (g, some e) => g.connect e 1
  | (g, none) => g

/-! ## Return analysis (`CFGReturnAnalyzer`) -/

/-- `isinstance(stmt, ReturnStmt)`. -/
def isReturnStmt : Stmt → Bool
  | .returnStmt _ => true
  | _ => false

/-- `CFGReturnAnalyzer._is_return_block`: nonempty and last statement is a
return. -/
def CFG.isReturnBlock (g : CFG) (b : Nat) : Bool :=
  match (g.stmtsOf b).getLast? with
  | some s => isReturnStmt s
  | none => false

/-- `CFGReturnAnalyzer._dfs_can_reach_exit`, generalized over the cut
predicate (`current in return_blocks` in the source).  The
`for succ in current.successors` loop threading the shared `visited` set is
a fold that stops contributing once the answer is `true`, exactly as the
Python loop returns early.  The Python recursion has no fuel; its depth is
bounded by the number of distinct blocks visited, so the explicit `fuel`
argument (instantiated with `nblocks + 1` below) never runs out on a
well-formed graph — made precise by the fuel-sufficiency lemmas below. -/
def dfsReach (g : CFG) (cut : Nat → Bool) (target : Nat) :
    Nat → Nat → Finset Nat → Bool × Finset Nat
  | 0, _, visited => (false, visited)
  | fuel + 1, current, visited =>
      if current = target then (true, visited)
      else if current ∈ visited then (false, visited)
      else if cut current then (false, insert current visited)
      else
        (g.successors current).foldl
          (fun acc s =>
            match acc with
            | (true, v) => (true, v)
            | (false, v) => dfsReach g cut target fuel s v)
          (false, insert current visited)

/-- `CFGReturnAnalyzer.function_always_returns`. -/
def CFG.functionAlwaysReturns (g : CFG) : Bool :=
  !(dfsReach g g.isReturnBlock g.exit (g.nblocks + 1) g.entry ∅).1

/-- pipeline lines 98–105: one diagnostic per function that fails
`function_always_returns`.  The Python message is
`"Function <quoted name> may not return a value on all paths"`, attached to
the `FunctionDef`; we record the message tail together with the function
name. -/
def returnDiags (fname : String) (g : CFG) : List (String × String) :=
  if g.functionAlwaysReturns then []
  else [("may not return a value on all paths", fname)]

/-! ## Unreachable-code analysis (`CFGUnreachableAnalyzer`) -/

/-- `CFGUnreachableAnalyzer._dfs`: collect every block reachable from the
start into `visited` (the successor loop folds over `visited`).  Fuel as for
`dfsReach`. -/
def dfsVisit (g : CFG) : Nat → Nat → Finset Nat → Finset Nat
  | 0, _, visited => visited
  | fuel + 1, b, visited =>
      if b ∈ visited then visited
      else (g.successors b).foldl (fun v s => dfsVisit g fuel s v) (insert b visited)

/-- `CFGUnreachableAnalyzer.reachable_blocks`. -/
def CFG.reachableBlocks (g : CFG) : Finset Nat :=
  dfsVisit g (g.nblocks + 1) g.entry ∅

/-- `CFGUnreachableAnalyzer.unreachable_blocks` = `set(blocks) - reachable`.
The Python result is a set whose iteration order is unspecified; we list the
block ids in creation order. -/
def CFG.unreachableBlocks (g : CFG) : List Nat :=
  (List.range g.nblocks).filter (fun b => b ∉ g.reachableBlocks)

/-- pipeline lines 107–112: one `"Unreachable code"` diagnostic per statement
of each unreachable block. -/
def CFG.unreachableDiags (g : CFG) : List (String × Stmt) :=
  g.unreachableBlocks.flatMap fun b =>
    (g.stmtsOf b).map fun s => ("Unreachable code", s)

/-- An edge from `a` to `b` exists (`b ∈ a.successors`). -/
def CFG.hasEdge (g : CFG) (a b : Nat) : Prop :=
  ∃ e ∈ g.edges, e.src = a ∧ e.dst = b

/-- One step of control flow that does not descend through a block whose last
statement is a return — the steps the return-analysis DFS may take. -/
def CFG.stepAvoidingReturn (g : CFG) (a b : Nat) : Prop :=
  g.hasEdge a b ∧ g.isReturnBlock a = false

/-! ## Variable access helpers (`CFGVarAccessHelper`) -/

mutual

/-- `CFGVarAccessHelper.vars_read_in_expr`. -/
def varsReadExpr : Expr → Finset String
  | .varExpr n => {n}
  | .literal _ => ∅
  | .unaryExpr _ r => varsReadExpr r
  | .binaryExpr l _ r => varsReadExpr l ∪ varsReadExpr r
  | .callExpr _ args => varsReadExprList args

/-- The `for arg in expr.arguments` union of `vars_read_in_expr`. -/
def varsReadExprList : List Expr → Finset String
  | [] => ∅
  | a :: rest => varsReadExpr a ∪ varsReadExprList rest

end

/-- `CFGVarAccessHelper.vars_read_in_stmt` (a nested `Block` falls through to
the final `return set()`; `ReturnStmt.value` is never `None` in our AST). -/
def varsReadStmt : Stmt → Finset String
  | .assign _ v => varsReadExpr v
  | .varDecl _ _ (some v) => varsReadExpr v
  | .varDecl _ _ none => ∅
  | .printStmt v => varsReadExpr v
  | .returnStmt v => varsReadExpr v
  | .ifStmt c _ _ => varsReadExpr c
  | .whileStmt c _ => varsReadExpr c
  | .blockStmt _ => ∅

/-- The variable a statement writes, if any: an `Assign`, or a `VarDecl` with
an initializer (`CFGVarAccessHelper.vars_written_in_stmt`, which always
returns a set of at most one name). -/
def varsWrittenOpt : Stmt → Option String
  | .assign n _ => some n
  | .varDecl _ n (some _) => some n
  | _ => none

/-- `CFGVarAccessHelper.vars_written_in_stmt` as a set. -/
def varsWrittenStmt (s : Stmt) : Finset String :=
  match varsWrittenOpt s with
  | some n => {n}
  | none => ∅

/-! ## Definite assignment (`CFGDefiniteAssignmentAnalyzer`) -/

/-- The `VarDecl` names found in one block's statement list
(inner loop of `_collect_all_variables`). -/
def declaredIn (stmts : List Stmt) : Finset String :=
  stmts.foldl
    (fun acc s => match s with
      | .varDecl _ n _ => insert n acc
      | _ => acc) ∅

/-- `CFGDefiniteAssignmentAnalyzer._collect_all_variables`: all `VarDecl`
names over all blocks. -/
def CFG.collectAllVariables (g : CFG) : Finset String :=
  g.stmts.foldl (fun acc bs => acc ∪ declaredIn bs) ∅

/-- `CFGDefiniteAssignmentAnalyzer._initialize`, `IN` component:
`{parameter names}` at `entry`, the universe of declared names elsewhere. -/
def daInitIN (g : CFG) (params : Finset String) : Nat → Finset String :=
  fun b => if b = g.entry then params else g.collectAllVariables

/-- `CFGDefiniteAssignmentAnalyzer._initialize`, `OUT` component: `∅`. -/
def daInitOUT : Nat → Finset String := fun _ => ∅

/-- `CFGDefiniteAssignmentAnalyzer._assigned_in_block`. -/
def CFG.assignedInBlock (g : CFG) (b : Nat) : Finset String :=
  (g.stmtsOf b).foldl
    (fun acc s => match varsWrittenOpt s with
      | some n => insert n acc
      | none => acc) ∅

/-- `CFGDefiniteAssignmentAnalyzer._compute_in`: untouched `IN[b]` if no
predecessors, otherwise fold `&=` over the predecessors' `OUT`, starting from
a copy of the first one. -/
def daComputeIn (g : CFG) (IN OUT : Nat → Finset String) (b : Nat) : Finset String :=
  match g.predecessors b with
  | [] => IN b
  | p :: rest => rest.foldl (fun acc q => acc ∩ OUT q) (OUT p)

/-- `CFGDefiniteAssignmentAnalyzer._compute_out`: `IN[b] ∪ assigned(b)`. -/
def daComputeOut (g : CFG) (b : Nat) (inSet : Finset String) : Finset String :=
  inSet ∪ g.assignedInBlock b

/-! ## Dead stores (`CFGDeadStoreAnalyzer`) -/

/-- One step of the backward liveness walk: kill the written variable, then
add the read ones (the `# kill` / `# gen` lines of `_compute_in` and the
`live -= written; live |= read` lines of `_collect_dead_stores`). -/
def liveStep (live : Finset String) (s : Stmt) : Finset String :=
  (live \ varsWrittenStmt s) ∪ varsReadStmt s

/-- Walk a statement list (already reversed, i.e. last statement first)
updating liveness. -/
def liveThrough (revStmts : List Stmt) (live : Finset String) : Finset String :=
  match revStmts with
  | [] => live
  | s :: rest => liveThrough rest (liveStep live s)

/-- `CFGDeadStoreAnalyzer._compute_in`: walk the block in reverse from the
`OUT` set. -/
def dsComputeIn (g : CFG) (b : Nat) (outSet : Finset String) : Finset String :=
  liveThrough (g.stmtsOf b).reverse outSet

/-- `new_out = ⋃ IN[succ]` over the successor list, as the
`CFGDeadStoreAnalyzer._fixed_point` loop computes it. -/
def dsUnionSucc (g : CFG) (IN : Nat → Finset String) (b : Nat) : Finset String :=
  (g.successors b).foldl (fun acc s => acc ∪ IN s) ∅

/-- The statements recorded by `_collect_dead_stores` while walking one
(already reversed) statement list: a statement is recorded when the variable
it writes is not live at that point, before applying kill/gen.  (The Python
inner loop appends once per written variable; `vars_written_in_stmt` yields
at most one name.) -/
def collectGo (revStmts : List Stmt) (live : Finset String) : List Stmt :=
  match revStmts with
  | [] => []
  | s :: rest =>
      (match varsWrittenOpt s with
        | some n => if n ∈ live then [] else [s]
        | none => []) ++ collectGo rest (liveStep live s)

/-- `_collect_dead_stores` restricted to one block, walking it in reverse
from its `OUT` set. -/
def collectDeadStores (g : CFG) (b : Nat) (outSet : Finset String) : List Stmt :=
  collectGo (g.stmtsOf b).reverse outSet

/-- All dead stores, per block in creation order, given the fixed-point `OUT`
sets. -/
def dsDeadStores (g : CFG) (OUT : Nat → Finset String) : List Stmt :=
  (List.range g.nblocks).flatMap fun b => collectDeadStores g b (OUT b)

/-- The `while changed` loop of `CFGDeadStoreAnalyzer._fixed_point` exits
exactly when recomputing every block changes nothing; these are the equations
that hold of `IN`/`OUT` at that point. -/
def DSFixpoint (g : CFG) (IN OUT : Nat → Finset String) : Prop :=
  ∀ b, OUT b = dsUnionSucc g IN b ∧ IN b = dsComputeIn g b (OUT b)

/-! ## Zero analysis (`CFGZeroAnalysis`) -/

/-- The three-valued abstract domain. -/
inductive ZeroState where
  | zero
  | nonzero
  | unknown
deriving DecidableEq, Repr

/-- The abstract state: a Python `dict` from variable name to `ZeroState`,
embedded as an association list with unique keys, in insertion order. -/
abbrev ZState := List (String × ZeroState)

/-- `state.get(name, ZeroState.UNKNOWN)`. -/
def ZState.get (s : ZState) (k : String) : ZeroState :=
  match List.find? (fun p => p.1 = k) s with
  | some p => p.2
  | none => .unknown

/-- `state[name] = v`: update in place if the key exists (keeping its
position, as a Python dict does), else append. -/
def ZState.set (s : ZState) (k : String) (v : ZeroState) : ZState :=
  match s with
  | [] => [(k, v)]
  | (k', v') :: rest =>
      if k' = k then (k, v) :: rest else (k', v') :: ZState.set rest k v

/-- The keys, in insertion order. -/
def ZState.keys (s : ZState) : List String := s.map (·.1)

/-- `CFGZeroAnalysis._eval_expr`.  Note the boolean-literal case: Python's
`isinstance(expr.value, int)` is true for `bool` and `False == 0`, so the
literal `false` evaluates to `ZERO` and `true` to `NONZERO`. -/
def zeroEvalExpr (state : ZState) : Expr → ZeroState
  | .literal (.int n) => if n = 0 then .zero else .nonzero
  | .literal (.bool b) => if b then .nonzero else .zero
  | .varExpr n => state.get n
  | _ => .unknown

/-- `CFGZeroAnalysis._apply_stmt`. -/
def zeroApplyStmt (st : ZState) (s : Stmt) : ZState :=
  match s with
  | .assign n v => st.set n (zeroEvalExpr st v)
  | .varDecl _ n (some v) => st.set n (zeroEvalExpr st v)
  | .varDecl _ n none => st.set n .unknown
  | _ => st

/-- `CFGZeroAnalysis._transfer_block`: apply every statement in order. -/
def zeroTransfer (stmts : List Stmt) (st : ZState) : ZState :=
  stmts.foldl zeroApplyStmt st

/-- `CFGZeroAnalysis.refine_on_condition` (value level: the Python function
mutates the state it is given and returns it; the caller is responsible for
passing a fresh copy). -/
def refineOnCondition (cond : Expr) (assumeTrue : Bool) (st : ZState) : ZState :=
  match cond with
  | .varExpr n => st.set n (if assumeTrue then .nonzero else .zero)
  | .unaryExpr op inner =>
      if op = "!" then
        match inner with
        | .varExpr n => st.set n (if assumeTrue then .zero else .nonzero)
        | _ => st
      else st
  | _ => st

/-- `CFGZeroAnalysis._join_states`: pointwise join over the union of the key
sets (agreeing values kept, disagreements mapped to `UNKNOWN`).  The Python
`set` iteration order is unspecified; keys are listed here in first-appearance
order, which changes nothing observable through `ZState.get`. -/
def joinStates (a b : ZState) : ZState :=
  (a.keys ++ b.keys).dedup.map
    (fun k => (k, if a.get k = b.get k then a.get k else ZeroState.unknown))

/-- The per-edge body of `CFGZeroAnalysis._compute_in`: copy the
predecessor's `OUT`, refine it if the edge carries a condition, and join. -/
def zeroEdgeState (OUT : Nat → ZState) (e : CFGEdge) : ZState :=
  match e.cond with
  | some c =>
      -- `assert edge.assume_true is not None`: built CFGs always pair the
      -- two fields, so the `none` case is the assertion-violation branch.
      match e.assumeTrue with
      | some b => refineOnCondition c b (OUT e.src)
      | none => OUT e.src
  | none => OUT e.src

/-- `CFGZeroAnalysis._compute_in`: fold the refined predecessor states with
`_join_states`, starting from `None`; an empty in-edge list yields `{}`. -/
def zeroComputeIn (g : CFG) (OUT : Nat → ZState) (b : Nat) : ZState :=
  match (g.inEdges b).foldl
      (fun acc e =>
        match acc with
        | none => some (zeroEdgeState OUT e)
        | some st => some (joinStates st (zeroEdgeState OUT e)))
      none with
  | some st => st
  | none => []

mutual

/-- `CFGZeroAnalysis._check_expr`: flag `"Possible division by zero"` on a
binary `/` whose right operand is a variable not known `NONZERO`, then
recurse (self first, then left, then right; call arguments in order). -/
def zeroCheckExpr (e : Expr) (st : ZState) : List (String × Expr) :=
  match e with
  | .binaryExpr l op r =>
      (if op = "/" then
        match r with
        | .varExpr v =>
            if st.get v ≠ .nonzero then [("Possible division by zero", e)] else []
        | _ => []
      else [])
      ++ zeroCheckExpr l st ++ zeroCheckExpr r st
  | .unaryExpr _ r => zeroCheckExpr r st
  | .callExpr _ args => zeroCheckExprList args st
  | _ => []

/-- The `for arg in expr.arguments` loop of `_check_expr`. -/
def zeroCheckExprList (args : List Expr) (st : ZState) : List (String × Expr) :=
  match args with
  | [] => []
  | a :: rest => zeroCheckExpr a st ++ zeroCheckExprList rest st

end

/-- `CFGZeroAnalysis._check_stmt`: only assignment values, initializers,
print and return expressions are checked — in particular `if`/`while`
conditions are not. -/
def zeroCheckStmt (s : Stmt) (st : ZState) : List (String × Expr) :=
  match s with
  | .assign _ v => zeroCheckExpr v st
  | .varDecl _ _ (some v) => zeroCheckExpr v st
  | .printStmt v => zeroCheckExpr v st
  | .returnStmt v => zeroCheckExpr v st
  | _ => []

/-- The diagnostic pass over one block (`CFGZeroAnalysis.analyze`, final
loop): walk the statements from `IN[b]`, checking before applying. -/
def zeroCheckBlock (stmts : List Stmt) (st : ZState) : List (String × Expr) :=
  match stmts with
  | [] => []
  | s :: rest => zeroCheckStmt s st ++ zeroCheckBlock rest (zeroApplyStmt st s)

/-- One sweep of the `while changed` loop of `CFGZeroAnalysis.analyze`:
recompute `IN`/`OUT` for each block in order, updating the maps in place
(Gauss–Seidel, exactly as the Python loop mutates `self.IN` / `self.OUT`).
The maps are lists indexed by block id. -/
def zeroSweep (g : CFG) : List ZState × List ZState → List ZState × List ZState :=
  fun maps =>
    (List.range g.nblocks).foldl
      (fun (maps : List ZState × List ZState) b =>
        let inb := zeroComputeIn g (fun p => maps.2.getD p []) b
        let outb := zeroTransfer (g.stmtsOf b) inb
        (maps.1.set b inb, maps.2.set b outb))
      maps

/-- Iterate `zeroSweep` until it changes nothing (the Python loop compares
dicts; on the concrete programs below the association lists stabilize
syntactically, which is checked explicitly where this is used). -/
def zeroIter (g : CFG) : Nat → List ZState × List ZState → List ZState × List ZState
  | 0, maps => maps
  | fuel + 1, maps =>
      let maps' := zeroSweep g maps
      if maps' = maps then maps else zeroIter g fuel maps'

/-- `CFGZeroAnalysis.analyze` end to end: initialize both maps to empty
states, iterate to the fixed point, then run the diagnostic pass over every
block in order from its `IN` state. -/
def zeroAnalyzeDiags (g : CFG) (fuel : Nat) : List (String × Expr) :=
  let init := (List.replicate g.nblocks ([] : ZState), List.replicate g.nblocks ([] : ZState))
  let maps := zeroIter g fuel init
  (List.range g.nblocks).flatMap fun b => zeroCheckBlock (g.stmtsOf b) (maps.1.getD b [])

/-! ## Heap-level model of `_compute_in` (for the frame property)

Python dicts are heap references: `refine_on_condition` mutates the dict it
is handed (`new_state: State = state` aliases), and `_compute_in` protects
the analysis state by copying (`pred_state = dict(self.OUT[edge.src])`)
before refining.  To state that computing `IN[b]` does not mutate any
predecessor's `OUT`, dicts live in an explicit heap (a list of states) and
the `OUT` map holds references (indices) into it. -/

/-- A heap of abstract states. -/
abbrev ZHeap := List ZState

/-- `refine_on_condition` at heap level: write through the given reference
(mutating the heap) and return the same reference, exactly as the Python
function mutates its argument and returns it; the no-refinement shapes leave
the heap untouched. -/
def refineOnConditionH (cond : Expr) (assumeTrue : Bool) (heap : ZHeap) (r : Nat) :
    ZHeap × Nat :=
  match cond with
  | .varExpr n =>
      (heap.set r ((heap.getD r []).set n (if assumeTrue then .nonzero else .zero)), r)
  | .unaryExpr op inner =>
      if op = "!" then
        match inner with
        | .varExpr n =>
            (heap.set r ((heap.getD r []).set n (if assumeTrue then .zero else .nonzero)), r)
        | _ => (heap, r)
      else (heap, r)
  | _ => (heap, r)

/-- The conditional-refinement step of `_compute_in`'s edge loop at heap
level (`if edge.cond is not None: pred_state = self.refine_on_condition(…)`),
acting on the reference `r` to the freshly copied predecessor state. -/
def zeroEdgeRefH (e : CFGEdge) (heap : ZHeap) (r : Nat) : ZHeap × Nat :=
  match e.cond with
  | some c =>
      match e.assumeTrue with
      | some b => refineOnConditionH c b heap r
      | none => (heap, r)
  | none => (heap, r)

/-- The body of `_compute_in`'s edge loop at heap level.  Per edge:
allocate a fresh copy of the predecessor's `OUT` dict (`dict(...)`), refine
through that fresh reference if the edge is conditional, and either adopt it
(first edge) or allocate the fresh dict `_join_states` returns. -/
def zeroComputeInHGo (OUTref : Nat → Nat) : List CFGEdge → ZHeap → Option Nat →
    ZHeap × Option Nat
  | [], heap, acc => (heap, acc)
  | e :: rest, heap, acc =>
      match acc, zeroEdgeRefH e (heap ++ [heap.getD (OUTref e.src) []]) heap.length with
      | none, (hp, r) => zeroComputeInHGo OUTref rest hp (some r)
      | some st, (hp, r) =>
          zeroComputeInHGo OUTref rest
            (hp ++ [joinStates (hp.getD st []) (hp.getD r [])])
            (some hp.length)

/-- `_compute_in` at heap level: fold over the in-edges; with no predecessor
state the returned `{}` is a fresh allocation. -/
def zeroComputeInH (g : CFG) (heap : ZHeap) (OUTref : Nat → Nat) (b : Nat) :
    ZHeap × Nat :=
  match zeroComputeInHGo OUTref (g.inEdges b) heap none with
  | (heap, some r) => (heap, r)
  | (heap, none) => (heap ++ [[]], heap.length)

/-! ## Semantic-stage unreachable-code diagnostics (`SemanticAnalyzer`)

`SemanticAnalyzer._visit_block` keeps a `reachable` flag: once a
`ReturnStmt` has been visited, every later statement of the same block is
flagged `"Unreachable code"` and skipped (`continue`) without further
analysis.  The functions below are the projection of
`_visit_block`/`_visit_stmt` onto exactly those diagnostics (no other part
of `SemanticAnalyzer` emits this message). -/

mutual

/-- Unreachable-code diagnostics produced while visiting one statement:
only the nested blocks of `if`/`while`/`Block` statements can contribute. -/
def semUnreachStmt : Stmt → List (String × Stmt)
  | .ifStmt _ t e =>
      semUnreachBlock t ++
        (match e with
          | some els => semUnreachBlock els
          | none => [])
  | .whileStmt _ b => semUnreachBlock b
  | .blockStmt b => semUnreachBlock b
  | _ => []

/-- `_visit_block`: fresh `reachable = True` flag per block. -/
def semUnreachBlock (stmts : List Stmt) : List (String × Stmt) :=
  semUnreachGo true stmts

/-- The statement loop of `_visit_block`: when `reachable` is false, flag and
skip; otherwise visit, and clear the flag after a `ReturnStmt`. -/
def semUnreachGo : Bool → List Stmt → List (String × Stmt)
  | _, [] => []
  | false, s :: rest => ("Unreachable code", s) :: semUnreachGo false rest
  | true, s :: rest => semUnreachStmt s ++ semUnreachGo (!isReturnStmt s) rest

end

/-! ## Concrete programs used as test inputs -/

/-- Body of `int main() { return 0; int y = 1; return y; }` (scenario B of
the spec). -/
def exPostReturn : List Stmt :=
  [.returnStmt (.literal (.int 0)),
   .varDecl "int" "y" (some (.literal (.int 1))),
   .returnStmt (.varExpr "y")]

/-- Body of `int main() { return 10 / 0; }`: a division whose right operand
is the integer literal `0`. -/
def exDivByLitZero : List Stmt :=
  [.returnStmt (.binaryExpr (.literal (.int 10)) "/" (.literal (.int 0)))]

/-- Body of `int f(int x) { while (x) { return 1; } }`: a `while` whose body
ends in `return`. -/
def exWhileReturn : List Stmt :=
  [.whileStmt (.varExpr "x") [.returnStmt (.literal (.int 1))]]

/-- Body of `int f(int x) { if (x / x) { return 1; } return 0; }`: a division
inside an `if` condition. -/
def exDivInCond : List Stmt :=
  [.ifStmt (.binaryExpr (.varExpr "x") "/" (.varExpr "x"))
      [.returnStmt (.literal (.int 1))] none,
   .returnStmt (.literal (.int 0))]

/-- Body of `int f(int x, int y) { if (y) { return x / y; } return 0; }`:
the division immediately follows `if (y)` in the then-branch. -/
def exIfThenDiv : List Stmt :=
  [.ifStmt (.varExpr "y")
      [.returnStmt (.binaryExpr (.varExpr "x") "/" (.varExpr "y"))] none,
   .returnStmt (.literal (.int 0))]

/-- Body of
`int main() { int a = 1; print(a); a = 2; return a; }`: the initial write to
`a` is read (by `print`) before the next write — a dead store only if that
`print` were absent. -/
def exDeadA : List Stmt :=
  [.varDecl "int" "a" (some (.literal (.int 1))),
   .printStmt (.varExpr "a"),
   .assign "a" (.literal (.int 2)),
   .returnStmt (.varExpr "a")]

/-- Body of `int f(int c) { a = 1; if (c) { print(a); } return 0; }`: the
write to `a` is read in a successor block. -/
def exDeadB : List Stmt :=
  [.assign "a" (.literal (.int 1)),
   .ifStmt (.varExpr "c") [.printStmt (.varExpr "a")] none,
   .returnStmt (.literal (.int 0))]

/-- A condition shape `refine_on_condition` does not refine: neither a bare
variable nor the negation of a bare variable. -/
abbrev NoRefineShape (c : Expr) : Prop :=
  (∀ x, c ≠ .varExpr x) ∧ (∀ x, c ≠ .unaryExpr "!" (.varExpr x))

/-- The part of `_build_while` that runs before the loop body is built:
create `cond_block` (id `g.nblocks`), `body_block` (id `g.nblocks + 1`) and
`after_block` (id `g.nblocks + 2`), connect `current → cond_block`, record
the `WhileStmt` marker in `cond_block`, and add its two conditional
out-edges.  `buildStmt` on a `whileStmt` is definitionally this header
followed by building the body from `body_block` and adding the back-edge
when the body's tail did not terminate. -/
def whileHeader (c : Expr) (body : List Stmt) (g : CFG) (cur : Nat) : CFG :=
  let condBlock := g.nblocks
  let g1 := (g.newBlock).1
  let bodyBlock := g1.nblocks
  let g2 := (g1.newBlock).1
  let afterBlock := g2.nblocks
  let g3 := (g2.newBlock).1
  let g4 := g3.connect cur condBlock
  let g5 := g4.appendStmt condBlock (.whileStmt c body)
  let g6 := g5.connect condBlock bodyBlock (some c) (some true)
  g6.connect condBlock afterBlock (some c) (some false)

/-- The `match end_block with Some e -> connect e join | None -> graph` idiom
the builder uses to close an optionally-terminated path (`_build_if`,
`_build_while`, `build`). -/
def connectOpt (eo : Option Nat) (g : CFG) (j : Nat) : CFG :=
  match eo with
  | some e => g.connect e j
  | none => g

/-- The part of `_build_if` that runs before the then-branch is built: record
the `IfStmt` marker in the current block, create `then_block`
(id `g.nblocks`) and `join_block` (id `g.nblocks + 1`), and connect the true
edge `current → then_block`.  `buildStmt` on an `ifStmt` is definitionally
this header followed by building the branches and joining them. -/
def ifHeader (c : Expr) (tb : List Stmt) (eb : Option (List Stmt)) (g : CFG)
    (cur : Nat) : CFG :=
  let g0 := g.appendStmt cur (.ifStmt c tb eb)
  let g1 := (g0.newBlock).1
  let g2 := (g1.newBlock).1
  g2.connect cur g.nblocks (some c) (some true)

/-- The invariants `CFGBuilder` maintains on the graph under construction:
`entry` is 0 and `exit` is 1; the statement table covers all blocks; no edge
enters `entry` or leaves `exit`; all edge endpoints are real blocks; `exit`
holds no statements; and every block ending in a `return` has exactly the
single out-edge to `exit` that `_build_return` gave it. -/
structure BuilderInv (g : CFG) : Prop where
  entry0 : g.entry = 0
  exit1 : g.exit = 1
  nb : 2 ≤ g.nblocks
  stlen : g.stmts.length = g.nblocks
  edst : ∀ e ∈ g.edges, e.dst ≠ 0 ∧ e.dst < g.nblocks
  esrc : ∀ e ∈ g.edges, e.src ≠ 1 ∧ e.src < g.nblocks
  exitEmpty : g.stmtsOf 1 = []
  retOut : ∀ b, g.isReturnBlock b = true → g.outEdges b = [⟨b, 1, none, none⟩]

/-- What holds of the "current" block threaded through the builder: a real
block other than `exit`, with no out-edges yet, not ending in a return. -/
structure OpenOK (g : CFG) (cur : Nat) : Prop where
  lt : cur < g.nblocks
  ne1 : cur ≠ 1
  noOut : g.outEdges cur = []
  notRet : g.isReturnBlock cur = false

/-- Postcondition of one builder call starting from graph `g` with open
block `cur`: the invariants hold of the result, blocks only accumulate, a
returned open block is the old one or fresh, new edges leave the old open
block or fresh blocks and enter `exit` or fresh blocks, and no old block
other than `cur` gains statements. -/
def BuildPost (g g' : CFG) (cur : Nat) (rOpt : Option Nat) : Prop :=
  BuilderInv g' ∧
  g.nblocks ≤ g'.nblocks ∧
  (∀ c, rOpt = some c → OpenOK g' c ∧ (c = cur ∨ g.nblocks ≤ c)) ∧
  (∃ new, g'.edges = g.edges ++ new ∧
    ∀ e ∈ new, (e.dst = 1 ∨ g.nblocks ≤ e.dst) ∧ (e.src = cur ∨ g.nblocks ≤ e.src)) ∧
  (∀ b, b ≠ cur → b < g.nblocks → g'.stmtsOf b = g.stmtsOf b)

/-- Occurrence of one expression inside another (used to characterize which
sub-expressions the zero-analysis diagnostic pass flags). -/
inductive IsSubExpr : Expr → Expr → Prop where
  | refl (e : Expr) : IsSubExpr e e
  | binaryLeft {t l : Expr} {op : String} {r : Expr} :
      IsSubExpr t l → IsSubExpr t (.binaryExpr l op r)
  | binaryRight {t l : Expr} {op : String} {r : Expr} :
      IsSubExpr t r → IsSubExpr t (.binaryExpr l op r)
  | unary {t : Expr} {op : String} {r : Expr} :
      IsSubExpr t r → IsSubExpr t (.unaryExpr op r)
  | callArg {t : Expr} {f : String} {args : List Expr} {a : Expr} :
      a ∈ args → IsSubExpr t a → IsSubExpr t (.callExpr f args)

/-! # Theorems -/

/-! ## C1: what happens to statements written after a `return` -/

/-- Helper: `_build_block` stops at the first terminated path, so everything
after a `return` in the same statement list is never visited. -/
theorem buildBlock_stops_after_return (pre : List Stmt) (e : Expr) (rest : List Stmt)
    (g : CFG) (cur : Nat) :
    buildBlock (pre ++ Stmt.returnStmt e :: rest) g cur
      = buildBlock (pre ++ [Stmt.returnStmt e]) g cur := by
  induction pre generalizing g cur with
  | nil =>
      simp only [List.nil_append, buildBlock, buildStmt]
  | cons s pre ih =>
      simp only [List.cons_append, buildBlock]
      cases buildStmt s g cur with
      | mk g' r =>
          cases r with
          | none => rfl
          | some c' => exact ih g' c'

/-- C1, counterexample: in
`int main() { return 0; int y = 1; return y; }` the statements after
`return 0` are not placed in any CFG block at all (the builder drops them),
and the CFG unreachable-code analysis emits no diagnostic — contradicting
the claim that they land in a predecessor-free block and are each flagged. -/
theorem c1_post_return_counterexample :
    (∀ bs ∈ (build exPostReturn).stmts,
        Stmt.varDecl "int" "y" (some (.literal (.int 1))) ∉ bs ∧
        Stmt.returnStmt (.varExpr "y") ∉ bs) ∧
    (build exPostReturn).unreachableDiags = [] := by
  constructor
  · have h : (build exPostReturn).stmts
        = [[Stmt.returnStmt (.literal (.int 0))], []] := rfl
    rw [h]
    intro bs hbs
    simp only [List.mem_cons, List.not_mem_nil, or_false] at hbs
    rcases hbs with rfl | rfl
    · constructor <;> simp
    · constructor <;> simp
  · rfl

/-- C1, amended: the builder does not place statements written after a
`return` (in the same block) into any CFG block — it drops them entirely,
producing the very same CFG as if they were absent — and consequently the
unreachable-code analysis emits no diagnostic for them.  (The
`"Unreachable code"` diagnostic for such statements comes from
`SemanticAnalyzer._visit_block`; see C10.) -/
theorem c1_build_drops_statements_after_return (pre : List Stmt) (e : Expr)
    (rest : List Stmt) :
    build (pre ++ Stmt.returnStmt e :: rest) = build (pre ++ [Stmt.returnStmt e]) ∧
    (build (pre ++ Stmt.returnStmt e :: rest)).unreachableDiags
      = (build (pre ++ [Stmt.returnStmt e])).unreachableDiags := by
  have h : build (pre ++ Stmt.returnStmt e :: rest)
      = build (pre ++ [Stmt.returnStmt e]) := by
    unfold build
    rw [buildBlock_stops_after_return pre e rest emptyCFG 0]
  exact ⟨h, by rw [h]⟩

/-! ## C10: the semantic stage flags statements after a `return` -/

/-- Helper: once the `reachable` flag is false, `_visit_block` flags each
remaining statement, one diagnostic per statement, analyzing none of them. -/
theorem semUnreachGo_false (stmts : List Stmt) :
    semUnreachGo false stmts = stmts.map (fun s => ("Unreachable code", s)) := by
  induction stmts with
  | nil => simp [semUnreachGo]
  | cons s rest ih => simp [semUnreachGo, ih]

/-- C10: `SemanticAnalyzer._visit_block` emits exactly one
`"Unreachable code"` diagnostic per statement following a `ReturnStmt` in
the same block, without analyzing those statements further (the nested
bodies of skipped statements contribute nothing); and on
`int main() { return 0; int y = 1; return y; }` it is this stage — not the
CFG unreachable-block analysis, which emits nothing — that produces the
`"Unreachable code"` diagnostics. -/
theorem c10_semantic_flags_post_return_statements (pre : List Stmt) (e : Expr)
    (rest : List Stmt) (hpre : ∀ s ∈ pre, isReturnStmt s = false) :
    semUnreachBlock (pre ++ Stmt.returnStmt e :: rest)
      = pre.flatMap semUnreachStmt
          ++ rest.map (fun s => ("Unreachable code", s)) ∧
    semUnreachBlock exPostReturn
      = [("Unreachable code", Stmt.varDecl "int" "y" (some (.literal (.int 1)))),
         ("Unreachable code", Stmt.returnStmt (.varExpr "y"))] ∧
    (build exPostReturn).unreachableDiags = [] := by
  refine ⟨?_, ?_, rfl⟩
  case refine_2 =>
    simp [exPostReturn, semUnreachBlock, semUnreachGo, semUnreachStmt, isReturnStmt]
  induction pre with
  | nil =>
      simp [semUnreachBlock, semUnreachGo, semUnreachStmt, isReturnStmt,
        semUnreachGo_false]
  | cons s pre ih =>
      have hs := hpre s (List.mem_cons_self s pre)
      have ih' := ih (fun t ht => hpre t (List.mem_cons_of_mem s ht))
      simp only [semUnreachBlock, semUnreachGo, List.cons_append] at *
      rw [hs]
      simp only [Bool.not_false, List.flatMap_cons, List.append_assoc]
      rw [ih']

/-- Witness for C10 at a concrete instance: `pre = []`. -/
theorem c10_witness :
    semUnreachBlock ([] ++ Stmt.returnStmt (.varExpr "z") :: [Stmt.assign "a" (.literal (.int 2))])
      = [("Unreachable code", Stmt.assign "a" (.literal (.int 2)))] := by
  have h := c10_semantic_flags_post_return_statements [] (.varExpr "z")
    [Stmt.assign "a" (.literal (.int 2))] (by intro s hs; cases hs)
  simpa using h.1

/-! ## C2: which divisions the zero analysis flags -/

mutual

/-- The diagnostics `_check_expr` emits on `e` are exactly one
`"Possible division by zero"` per occurrence in `e` of a binary `/` whose
right operand is a variable reference not known `NONZERO`. -/
theorem zeroCheckExpr_mem_iff (e : Expr) (st : ZState) (d : String × Expr) :
    d ∈ zeroCheckExpr e st ↔
      ∃ l v, d = ("Possible division by zero", Expr.binaryExpr l "/" (.varExpr v)) ∧
        IsSubExpr (Expr.binaryExpr l "/" (.varExpr v)) e ∧ st.get v ≠ .nonzero := by
  cases e with
  | literal x =>
      simp only [zeroCheckExpr, List.not_mem_nil, false_iff]
      rintro ⟨l, v, -, hsub, -⟩
      cases hsub
  | varExpr n =>
      simp only [zeroCheckExpr, List.not_mem_nil, false_iff]
      rintro ⟨l, v, -, hsub, -⟩
      cases hsub
  | unaryExpr op r =>
      simp only [zeroCheckExpr, zeroCheckExpr_mem_iff r st d]
      constructor
      · rintro ⟨l, v, hd, hsub, hv⟩
        exact ⟨l, v, hd, .unary hsub, hv⟩
      · rintro ⟨l, v, hd, hsub, hv⟩
        cases hsub with
        | unary h => exact ⟨l, v, hd, h, hv⟩
  | callExpr f args =>
      simp only [zeroCheckExpr, zeroCheckExprList_mem_iff args st d]
      constructor
      · rintro ⟨a, ha, l, v, hd, hsub, hv⟩
        exact ⟨l, v, hd, .callArg ha hsub, hv⟩
      · rintro ⟨l, v, hd, hsub, hv⟩
        cases hsub with
        | callArg ha h => exact ⟨_, ha, l, v, hd, h, hv⟩
  | binaryExpr l op r =>
      simp only [zeroCheckExpr, List.mem_append, zeroCheckExpr_mem_iff l st d,
        zeroCheckExpr_mem_iff r st d]
      constructor
      · rintro ((hhead | ⟨l', v, hd, hsub, hv⟩) | ⟨l', v, hd, hsub, hv⟩)
        · by_cases hop : op = "/"
          · subst hop
            cases r with
            | varExpr v =>
                by_cases hv : st.get v = ZeroState.nonzero
                · simp [hv] at hhead
                · simp only [ne_eq, hv, not_false_iff, if_true, List.mem_singleton,
                    reduceIte] at hhead
                  exact ⟨l, v, hhead, .refl _, hv⟩
            | literal x => simp at hhead
            | callExpr f args => simp at hhead
            | binaryExpr a b c => simp at hhead
            | unaryExpr a b => simp at hhead
          · simp [hop] at hhead
        · exact ⟨l', v, hd, .binaryLeft hsub, hv⟩
        · exact ⟨l', v, hd, .binaryRight hsub, hv⟩
      · rintro ⟨l', v, hd, hsub, hv⟩
        cases hsub with
        | refl =>
            subst hd
            exact Or.inl (Or.inl (by simp [hv]))
        | binaryLeft h => exact Or.inl (Or.inr ⟨l', v, hd, h, hv⟩)
        | binaryRight h => exact Or.inr ⟨l', v, hd, h, hv⟩

/-- Companion of `zeroCheckExpr_mem_iff` for argument lists. -/
theorem zeroCheckExprList_mem_iff (args : List Expr) (st : ZState) (d : String × Expr) :
    d ∈ zeroCheckExprList args st ↔
      ∃ a ∈ args, ∃ l v,
        d = ("Possible division by zero", Expr.binaryExpr l "/" (.varExpr v)) ∧
        IsSubExpr (Expr.binaryExpr l "/" (.varExpr v)) a ∧ st.get v ≠ .nonzero := by
  cases args with
  | nil => simp [zeroCheckExprList]
  | cons a rest =>
      simp only [zeroCheckExprList, List.mem_append, zeroCheckExpr_mem_iff a st d,
        zeroCheckExprList_mem_iff rest st d, List.mem_cons]
      constructor
      · rintro (⟨l, v, hd, hsub, hv⟩ | ⟨b, hb, l, v, hd, hsub, hv⟩)
        · exact ⟨a, Or.inl rfl, l, v, hd, hsub, hv⟩
        · exact ⟨b, Or.inr hb, l, v, hd, hsub, hv⟩
      · rintro ⟨b, hb | hb, l, v, hd, hsub, hv⟩
        · subst hb; exact Or.inl ⟨l, v, hd, hsub, hv⟩
        · exact Or.inr ⟨b, hb, l, v, hd, hsub, hv⟩

end

/-- C2, counterexample: neither `int main() { return 10 / 0; }` (right
operand the integer literal `0`) nor
`int f(int x) { if (x / x) { return 1; } return 0; }` (division inside an
`if` condition, `x` not provably non-zero) receives any
`"Possible division by zero"` diagnostic from the zero analysis.  The
`zeroSweep` conjuncts certify that the fueled iteration has reached the
fixed point at which the Python `while changed` loop stops, so the listed
diagnostics are exactly what `CFGZeroAnalysis.analyze` emits. -/
theorem c2_divzero_counterexample :
    zeroAnalyzeDiags (build exDivByLitZero) 10 = [] ∧
    zeroSweep (build exDivByLitZero) (List.replicate 2 [], List.replicate 2 [])
      = (List.replicate 2 [], List.replicate 2 []) ∧
    zeroAnalyzeDiags (build exDivInCond) 10 = [] ∧
    zeroSweep (build exDivInCond) (List.replicate 4 [], List.replicate 4 [])
      = (List.replicate 4 [], List.replicate 4 []) := by
  refine ⟨?_, rfl, ?_, rfl⟩
  · have hb : zeroAnalyzeDiags (build exDivByLitZero) 10
        = zeroCheckBlock ((build exDivByLitZero).stmtsOf 0) []
          ++ (zeroCheckBlock ((build exDivByLitZero).stmtsOf 1) [] ++ []) := rfl
    have h0 : (build exDivByLitZero).stmtsOf 0
        = [.returnStmt (.binaryExpr (.literal (.int 10)) "/" (.literal (.int 0)))] := rfl
    have h1 : (build exDivByLitZero).stmtsOf 1 = [] := rfl
    rw [hb, h0, h1]
    simp [zeroCheckBlock, zeroCheckStmt, zeroCheckExpr]
  · have hb : zeroAnalyzeDiags (build exDivInCond) 10
        = zeroCheckBlock ((build exDivInCond).stmtsOf 0) []
          ++ (zeroCheckBlock ((build exDivInCond).stmtsOf 1) []
          ++ (zeroCheckBlock ((build exDivInCond).stmtsOf 2) []
          ++ (zeroCheckBlock ((build exDivInCond).stmtsOf 3) [] ++ []))) := rfl
    have h0 : (build exDivInCond).stmtsOf 0
        = [.ifStmt (.binaryExpr (.varExpr "x") "/" (.varExpr "x"))
            [.returnStmt (.literal (.int 1))] none] := rfl
    have h1 : (build exDivInCond).stmtsOf 1 = [] := rfl
    have h2 : (build exDivInCond).stmtsOf 2 = [.returnStmt (.literal (.int 1))] := rfl
    have h3 : (build exDivInCond).stmtsOf 3 = [.returnStmt (.literal (.int 0))] := rfl
    rw [hb, h0, h1, h2, h3]
    simp [zeroCheckBlock, zeroCheckStmt, zeroCheckExpr]

/-- C2, amended: the diagnostic pass flags exactly the binary `/`
sub-expressions whose right operand is a **variable reference** whose
abstract value is not `NONZERO` — a division whose right operand is not a
variable (e.g. the literal `0`) is never flagged — and it only looks inside
the expressions of `Assign` / initialized `VarDecl` / `print` / `return`
statements: the condition expressions of `if` and `while` markers are not
checked at all. -/
theorem c2_divzero_flagging_characterized :
    (∀ (e : Expr) (st : ZState) (d : String × Expr),
        d ∈ zeroCheckExpr e st ↔
          ∃ l v, d = ("Possible division by zero", Expr.binaryExpr l "/" (.varExpr v)) ∧
            IsSubExpr (Expr.binaryExpr l "/" (.varExpr v)) e ∧ st.get v ≠ .nonzero) ∧
    (∀ c t els st, zeroCheckStmt (.ifStmt c t els) st = []) ∧
    (∀ c b st, zeroCheckStmt (.whileStmt c b) st = []) ∧
    (∀ n v st, zeroCheckStmt (.assign n v) st = zeroCheckExpr v st) ∧
    (∀ t n v st, zeroCheckStmt (.varDecl t n (some v)) st = zeroCheckExpr v st) ∧
    (∀ v st, zeroCheckStmt (.printStmt v) st = zeroCheckExpr v st) ∧
    (∀ v st, zeroCheckStmt (.returnStmt v) st = zeroCheckExpr v st) :=
  ⟨zeroCheckExpr_mem_iff, fun _ _ _ _ => rfl, fun _ _ _ => rfl, fun _ _ _ => rfl,
    fun _ _ _ _ => rfl, fun _ _ => rfl, fun _ _ => rfl⟩

/-! ## C4: edge refinement -/

/-- Lookup in a cons cell. -/
theorem ZState.get_cons (ka : String) (va : ZeroState) (rest : ZState) (k' : String) :
    ZState.get ((ka, va) :: rest) k' = if ka = k' then va else rest.get k' := by
  by_cases h : ka = k' <;> simp [ZState.get, List.find?, h]

/-- Lookup after a dict update. -/
theorem ZState.get_set (s : ZState) (k : String) (v : ZeroState) (k' : String) :
    (s.set k v).get k' = if k' = k then v else s.get k' := by
  induction s with
  | nil =>
      simp only [ZState.set]
      rw [ZState.get_cons]
      by_cases h : k = k'
      · subst h; simp
      · have h' : ¬ k' = k := fun hh => h hh.symm
        simp [h, h', ZState.get]
  | cons a rest ih =>
      obtain ⟨ka, va⟩ := a
      simp only [ZState.set]
      by_cases hak : ka = k
      · subst hak
        rw [if_pos rfl, ZState.get_cons, ZState.get_cons]
        by_cases h : ka = k'
        · subst h; simp
        · have h' : ¬ k' = ka := fun hh => h hh.symm
          simp [h, h']
      · simp only [if_neg hak]
        rw [ZState.get_cons, ZState.get_cons]
        by_cases h : ka = k'
        · subst h
          have h' : ¬ ka = k := hak
          simp [h']
        · simp [h, ih]

/-- C4: edge refinement behaves exactly as specified — on a bare variable
condition `x`, the `assume_true=true` edge sets `x` to `NONZERO` and the
false edge to `ZERO` (other variables untouched); on `!x` the two are
inverted; any other condition shape returns the state unrefined.
Consequently, in any block entered only through the true edge of a
condition that is the bare variable `y` (the then-branch of `if (y)`),
`IN[b]` maps `y` to `NONZERO` and a division `x / y` there is not
flagged. -/
theorem c4_edge_refinement :
    (∀ (x : String) (b : Bool) (st : ZState) (y : String),
        (refineOnCondition (.varExpr x) b st).get y
          = if y = x then (if b then ZeroState.nonzero else .zero) else st.get y) ∧
    (∀ (x : String) (b : Bool) (st : ZState) (y : String),
        (refineOnCondition (.unaryExpr "!" (.varExpr x)) b st).get y
          = if y = x then (if b then ZeroState.zero else .nonzero) else st.get y) ∧
    (∀ (c : Expr) (b : Bool) (st : ZState),
        NoRefineShape c → refineOnCondition c b st = st) ∧
    (∀ (g : CFG) (OUT : Nat → ZState) (bId p : Nat) (y : String) (xE : Expr),
        g.inEdges bId = [⟨p, bId, some (.varExpr y), some true⟩] →
          (zeroComputeIn g OUT bId).get y = ZeroState.nonzero ∧
          zeroCheckExpr (.binaryExpr xE "/" (.varExpr y)) (zeroComputeIn g OUT bId)
            = zeroCheckExpr xE (zeroComputeIn g OUT bId)) := by
  refine ⟨?_, ?_, ?_, ?_⟩
  · intro x b st y
    simp [refineOnCondition, ZState.get_set]
  · intro x b st y
    simp [refineOnCondition, ZState.get_set]
  · intro c b st hc
    obtain ⟨hvar, hneg⟩ := hc
    cases c with
    | varExpr x => exact absurd rfl (hvar x)
    | unaryExpr op r =>
        by_cases hop : op = "!"
        · subst hop
          cases r with
          | varExpr x => exact absurd rfl (hneg x)
          | literal l => rfl
          | callExpr f a => rfl
          | binaryExpr a o c => rfl
          | unaryExpr o r => rfl
        · simp [refineOnCondition, hop]
    | literal l => rfl
    | callExpr f a => rfl
    | binaryExpr a o c => rfl
  · intro g OUT bId p y xE hIn
    have hstate : zeroComputeIn g OUT bId
        = refineOnCondition (.varExpr y) true (OUT p) := by
      simp [zeroComputeIn, hIn, zeroEdgeState]
    have hy : (zeroComputeIn g OUT bId).get y = ZeroState.nonzero := by
      rw [hstate]
      simp [refineOnCondition, ZState.get_set]
    refine ⟨hy, ?_⟩
    conv_lhs => rw [zeroCheckExpr]
    simp [hy, zeroCheckExpr]

/-- Witness for C4: applied to the CFG of
`int f(int x, int y) { if (y) { return x / y; } return 0; }`, whose
then-block (id 2) is entered only through the true edge of condition `y`;
and a sample unrefinable condition (the literal `5`). -/
theorem c4_witness :
    (zeroComputeIn (build exIfThenDiv) (fun _ => []) 2).get "y" = ZeroState.nonzero ∧
    zeroCheckExpr (.binaryExpr (.varExpr "x") "/" (.varExpr "y"))
        (zeroComputeIn (build exIfThenDiv) (fun _ => []) 2)
      = zeroCheckExpr (.varExpr "x") (zeroComputeIn (build exIfThenDiv) (fun _ => []) 2) ∧
    refineOnCondition (.literal (.int 5)) true [("a", .zero)] = [("a", .zero)] := by
  have h4 := c4_edge_refinement.2.2.2 (build exIfThenDiv) (fun _ => []) 2 0 "y"
    (.varExpr "x") rfl
  have h3 := c4_edge_refinement.2.2.1 (.literal (.int 5)) true [("a", .zero)]
    ⟨fun x h => Expr.noConfusion h, fun x h => Expr.noConfusion h⟩
  exact ⟨h4.1, h4.2, h3⟩

/-! ## C5: the definite-assignment dataflow system -/

/-- Membership in the fold that collects written names. -/
theorem mem_foldl_insertWritten (stmts : List Stmt) (A : Finset String) (x : String) :
    x ∈ stmts.foldl
        (fun acc s => match varsWrittenOpt s with
          | some n => insert n acc
          | none => acc) A
      ↔ x ∈ A ∨ ∃ s ∈ stmts, varsWrittenOpt s = some x := by
  induction stmts generalizing A with
  | nil => simp
  | cons s rest ih =>
      simp only [List.foldl_cons]
      cases hvw : varsWrittenOpt s with
      | none => simp [ih, hvw]
      | some n =>
          rw [ih]
          simp only [Finset.mem_insert, List.mem_cons]
          constructor
          · rintro ((rfl | hA) | ⟨t, ht, hts⟩)
            · exact Or.inr ⟨s, Or.inl rfl, hvw⟩
            · exact Or.inl hA
            · exact Or.inr ⟨t, Or.inr ht, hts⟩
          · rintro (hA | ⟨t, rfl | ht, hts⟩)
            · exact Or.inl (Or.inr hA)
            · rw [hvw] at hts
              exact Or.inl (Or.inl (Option.some_injective _ hts).symm)
            · exact Or.inr ⟨t, ht, hts⟩

/-- Membership in the fold that intersects predecessor `OUT` sets. -/
theorem mem_foldl_inter (l : List Nat) (OUT : Nat → Finset String)
    (acc : Finset String) (x : String) :
    x ∈ l.foldl (fun a q => a ∩ OUT q) acc ↔ x ∈ acc ∧ ∀ q ∈ l, x ∈ OUT q := by
  induction l generalizing acc with
  | nil => simp
  | cons p rest ih =>
      simp only [List.foldl_cons, ih, Finset.mem_inter, List.mem_cons]
      constructor
      · rintro ⟨⟨ha, hp⟩, hrest⟩
        refine ⟨ha, ?_⟩
        rintro q (rfl | hq)
        · exact hp
        · exact hrest q hq
      · rintro ⟨ha, hall⟩
        exact ⟨⟨ha, hall p (Or.inl rfl)⟩, fun q hq => hall q (Or.inr hq)⟩

/-- Membership in the fold that collects declared names. -/
theorem mem_declaredIn (stmts : List Stmt) (x : String) :
    x ∈ declaredIn stmts ↔ ∃ s ∈ stmts, ∃ t v, s = Stmt.varDecl t x v := by
  have main : ∀ (A : Finset String),
      x ∈ stmts.foldl
          (fun acc s => match s with
            | Stmt.varDecl _ n _ => insert n acc
            | _ => acc) A
        ↔ x ∈ A ∨ ∃ s ∈ stmts, ∃ t v, s = Stmt.varDecl t x v := by
    induction stmts with
    | nil => simp
    | cons s rest ih =>
        intro A
        simp only [List.foldl_cons]
        cases s with
        | varDecl t n v =>
            rw [ih]
            simp only [Finset.mem_insert, List.mem_cons]
            constructor
            · rintro ((rfl | hA) | ⟨u, hu, tu, vu, rfl⟩)
              · exact Or.inr ⟨.varDecl t x v, Or.inl rfl, t, v, rfl⟩
              · exact Or.inl hA
              · exact Or.inr ⟨_, Or.inr hu, tu, vu, rfl⟩
            · rintro (hA | ⟨u, rfl | hu, tu, vu, hu2⟩)
              · exact Or.inl (Or.inr hA)
              · injection hu2 with h1 h2 h3
                exact Or.inl (Or.inl h2.symm)
              · exact Or.inr ⟨_, hu, tu, vu, hu2⟩
        | assign n v => simp [ih]
        | ifStmt c tb eb => simp [ih]
        | whileStmt c b => simp [ih]
        | returnStmt v => simp [ih]
        | printStmt v => simp [ih]
        | blockStmt b => simp [ih]
  simpa using main ∅

/-- Membership in the universe of declared variables. -/
theorem mem_collectAllVariables (g : CFG) (x : String) :
    x ∈ g.collectAllVariables ↔
      ∃ bs ∈ g.stmts, ∃ s ∈ bs, ∃ t v, s = Stmt.varDecl t x v := by
  have main : ∀ (bss : List (List Stmt)) (A : Finset String),
      x ∈ bss.foldl (fun acc bs => acc ∪ declaredIn bs) A
        ↔ x ∈ A ∨ ∃ bs ∈ bss, ∃ s ∈ bs, ∃ t v, s = Stmt.varDecl t x v := by
    intro bss
    induction bss with
    | nil => simp
    | cons bs rest ih =>
        intro A
        simp only [List.foldl_cons, ih, Finset.mem_union, mem_declaredIn, List.mem_cons]
        constructor
        · rintro ((hA | hbs) | ⟨u, hu, rest'⟩)
          · exact Or.inl hA
          · exact Or.inr ⟨bs, Or.inl rfl, hbs⟩
          · exact Or.inr ⟨u, Or.inr hu, rest'⟩
        · rintro (hA | ⟨u, rfl | hu, rest'⟩)
          · exact Or.inl (Or.inl hA)
          · exact Or.inl (Or.inr rest')
          · exact Or.inr ⟨u, hu, rest'⟩
  simpa using main g.stmts ∅

/-- `vars_written_in_stmt` writes `x` exactly for `Assign x …` and
`VarDecl … x (some …)`. -/
theorem varsWrittenOpt_eq_some (s : Stmt) (x : String) :
    varsWrittenOpt s = some x ↔
      (∃ v, s = Stmt.assign x v) ∨ (∃ t v, s = Stmt.varDecl t x (some v)) := by
  cases s with
  | assign n v =>
      simp only [varsWrittenOpt, Option.some_inj]
      constructor
      · rintro rfl; exact Or.inl ⟨v, rfl⟩
      · rintro (⟨v', hv⟩ | ⟨t, v', hv⟩) <;> cases hv <;> rfl
  | varDecl t n v =>
      cases v with
      | none => simp [varsWrittenOpt]
      | some v0 =>
          simp only [varsWrittenOpt, Option.some_inj]
          constructor
          · rintro rfl; exact Or.inr ⟨t, v0, rfl⟩
          · rintro (⟨v', hv⟩ | ⟨t', v', hv⟩) <;> cases hv <;> rfl
  | ifStmt c tb eb => simp [varsWrittenOpt]
  | whileStmt c b => simp [varsWrittenOpt]
  | returnStmt v => simp [varsWrittenOpt]
  | printStmt v => simp [varsWrittenOpt]
  | blockStmt b => simp [varsWrittenOpt]

/-- C5: the definite-assignment analysis implements exactly the specified
dataflow system — `IN[entry] = {params}`, `IN[b ≠ entry] =` all declared
names, `OUT[b] = ∅` initially; `OUT[b] = IN[b] ∪ assigned(b)` with
`assigned(b)` the names written by `Assign` or initialized `VarDecl`
statements (un-initialized `VarDecl`s add nothing); `IN[b]` is the
intersection of the predecessors' `OUT` and is left untouched when `b` has
no predecessors. -/
theorem c5_defassign_dataflow_system :
    (∀ (g : CFG) (params : Finset String), daInitIN g params g.entry = params) ∧
    (∀ (g : CFG) (params : Finset String) (b : Nat), b ≠ g.entry →
        daInitIN g params b = g.collectAllVariables) ∧
    (∀ (g : CFG) (x : String),
        x ∈ g.collectAllVariables ↔
          ∃ bs ∈ g.stmts, ∃ s ∈ bs, ∃ t v, s = Stmt.varDecl t x v) ∧
    (∀ b, daInitOUT b = (∅ : Finset String)) ∧
    (∀ (g : CFG) (IN OUT : Nat → Finset String) (b : Nat),
        g.predecessors b = [] → daComputeIn g IN OUT b = IN b) ∧
    (∀ (g : CFG) (IN OUT : Nat → Finset String) (b : Nat) (x : String) (p : Nat)
        (rest : List Nat), g.predecessors b = p :: rest →
          (x ∈ daComputeIn g IN OUT b ↔ ∀ q ∈ g.predecessors b, x ∈ OUT q)) ∧
    (∀ (g : CFG) (b : Nat) (inSet : Finset String),
        daComputeOut g b inSet = inSet ∪ g.assignedInBlock b) ∧
    (∀ (g : CFG) (b : Nat) (x : String),
        x ∈ g.assignedInBlock b ↔
          ∃ s ∈ g.stmtsOf b,
            (∃ v, s = Stmt.assign x v) ∨ (∃ t v, s = Stmt.varDecl t x (some v))) := by
  refine ⟨?_, ?_, mem_collectAllVariables, fun _ => rfl, ?_, ?_, fun _ _ _ => rfl, ?_⟩
  · intro g params
    simp [daInitIN]
  · intro g params b hb
    simp [daInitIN, hb]
  · intro g IN OUT b hb
    simp [daComputeIn, hb]
  · intro g IN OUT b x p rest hb
    rw [hb]
    simp only [daComputeIn, hb, mem_foldl_inter, List.mem_cons]
    constructor
    · rintro ⟨hp, hrest⟩ q (rfl | hq)
      · exact hp
      · exact hrest q hq
    · intro hall
      exact ⟨hall p (Or.inl rfl), fun q hq => hall q (Or.inr hq)⟩
  · intro g b x
    rw [show g.assignedInBlock b = (g.stmtsOf b).foldl
        (fun acc s => match varsWrittenOpt s with
          | some n => insert n acc
          | none => acc) ∅ from rfl]
    rw [mem_foldl_insertWritten]
    simp only [Finset.not_mem_empty, false_or]
    constructor
    · rintro ⟨s, hs, hw⟩
      exact ⟨s, hs, (varsWrittenOpt_eq_some s x).mp hw⟩
    · rintro ⟨s, hs, hw⟩
      exact ⟨s, hs, (varsWrittenOpt_eq_some s x).mpr hw⟩

/-- Witness for C5 on the CFG of
`int f(int x, int y) { if (y) { return x / y; } return 0; }`: block 2 is not
`entry`, `entry` has no predecessors, and the join block 3 has predecessor
list `[0]`. -/
theorem c5_witness :
    daInitIN (build exIfThenDiv) {"x", "y"} 2 = (build exIfThenDiv).collectAllVariables ∧
    daComputeIn (build exIfThenDiv) (fun _ => {"x"}) (fun _ => ∅) 0 = {"x"} ∧
    ("x" ∈ daComputeIn (build exIfThenDiv) (fun _ => ∅) (fun _ => {"x"}) 3 ↔
      ∀ q ∈ (build exIfThenDiv).predecessors 3, "x" ∈ (fun _ => ({"x"} : Finset String)) q) := by
  refine ⟨?_, ?_, ?_⟩
  · exact c5_defassign_dataflow_system.2.1 (build exIfThenDiv) {"x", "y"} 2 (by decide)
  · exact c5_defassign_dataflow_system.2.2.2.2.1 (build exIfThenDiv)
      (fun _ => {"x"}) (fun _ => ∅) 0 rfl
  · exact c5_defassign_dataflow_system.2.2.2.2.2.1 (build exIfThenDiv)
      (fun _ => ∅) (fun _ => {"x"}) 3 "x" 0 [] rfl

/-! ## C8: `_compute_in` never mutates a predecessor's `OUT` -/

/-- `refine_on_condition` writes only through the reference it is given:
the heap keeps its length, every other cell is untouched, and the returned
reference is the argument itself. -/
theorem refineOnConditionH_frame (c : Expr) (b : Bool) (heap : ZHeap) (r : Nat) :
    (refineOnConditionH c b heap r).1.length = heap.length ∧
    (refineOnConditionH c b heap r).2 = r ∧
    ∀ i, i ≠ r → (refineOnConditionH c b heap r).1[i]? = heap[i]? := by
  cases c with
  | varExpr n =>
      exact ⟨List.length_set .., rfl, fun i hi => List.getElem?_set_ne (fun h => hi h.symm)⟩
  | unaryExpr op inner =>
      by_cases hop : op = "!"
      · subst hop
        cases inner with
        | varExpr n =>
            refine ⟨?_, ?_, ?_⟩
            · simp [refineOnConditionH]
            · simp [refineOnConditionH]
            · intro i hi
              simp only [refineOnConditionH, if_pos rfl]
              exact List.getElem?_set_ne (fun h => hi h.symm)
        | literal l => simp [refineOnConditionH]
        | callExpr f a => simp [refineOnConditionH]
        | binaryExpr a o c => simp [refineOnConditionH]
        | unaryExpr o r => simp [refineOnConditionH]
      · simp [refineOnConditionH, hop]
  | literal l => exact ⟨rfl, rfl, fun i hi => rfl⟩
  | callExpr f a => exact ⟨rfl, rfl, fun i hi => rfl⟩
  | binaryExpr a o c => exact ⟨rfl, rfl, fun i hi => rfl⟩

/-- The refinement step keeps the heap length and touches only the cell it
was pointed at. -/
theorem zeroEdgeRefH_frame (e : CFGEdge) (heap : ZHeap) (r : Nat) :
    (zeroEdgeRefH e heap r).1.length = heap.length ∧
    (zeroEdgeRefH e heap r).2 = r ∧
    ∀ i, i ≠ r → (zeroEdgeRefH e heap r).1[i]? = heap[i]? := by
  cases hc : e.cond with
  | none => exact ⟨by simp [zeroEdgeRefH, hc], by simp [zeroEdgeRefH, hc],
      fun i hi => by simp [zeroEdgeRefH, hc]⟩
  | some c =>
      cases hat : e.assumeTrue with
      | none => exact ⟨by simp [zeroEdgeRefH, hc, hat], by simp [zeroEdgeRefH, hc, hat],
          fun i hi => by simp [zeroEdgeRefH, hc, hat]⟩
      | some bb =>
          obtain ⟨h1, h2, h3⟩ := refineOnConditionH_frame c bb heap r
          exact ⟨by simpa [zeroEdgeRefH, hc, hat] using h1,
            by simpa [zeroEdgeRefH, hc, hat] using h2,
            fun i hi => by simpa [zeroEdgeRefH, hc, hat] using h3 i hi⟩

/-- The edge loop of `_compute_in` only allocates fresh dicts (at indices at
or beyond the current heap end) and writes through those fresh references:
every pre-existing heap cell is unchanged. -/
theorem zeroComputeInHGo_frame (OUTref : Nat → Nat) (edges : List CFGEdge) :
    ∀ (heap : ZHeap) (acc : Option Nat) (i : Nat), i < heap.length →
      heap.length ≤ (zeroComputeInHGo OUTref edges heap acc).1.length ∧
      (zeroComputeInHGo OUTref edges heap acc).1[i]? = heap[i]? := by
  induction edges with
  | nil => exact fun heap acc i hi => ⟨Nat.le_refl _, rfl⟩
  | cons e rest ih =>
      intro heap acc i hi
      obtain ⟨hr1, hr2, hr3⟩ :=
        zeroEdgeRefH_frame e (heap ++ [heap.getD (OUTref e.src) []]) heap.length
      set hp := (zeroEdgeRefH e (heap ++ [heap.getD (OUTref e.src) []]) heap.length).1
        with hhp
      set r := (zeroEdgeRefH e (heap ++ [heap.getD (OUTref e.src) []]) heap.length).2
        with hhr
      have hplen : hp.length = heap.length + 1 := by
        rw [hhp, hr1]; simp
      have hpget : hp[i]? = heap[i]? := by
      -- the copy is appended past the end; the refinement writes cell
      -- `heap.length`, and `i` is below it
        rw [hhp, hr3 i (by omega), List.getElem?_append_left hi]
      cases acc with
      | none =>
          have hstep : zeroComputeInHGo OUTref (e :: rest) heap none
              = zeroComputeInHGo OUTref rest hp (some r) := rfl
          rw [hstep]
          obtain ⟨h1, h2⟩ := ih hp (some r) i (by omega)
          exact ⟨by omega, by rw [h2, hpget]⟩
      | some st =>
          have hstep : zeroComputeInHGo OUTref (e :: rest) heap (some st)
              = zeroComputeInHGo OUTref rest
                  (hp ++ [joinStates (hp.getD st []) (hp.getD r [])])
                  (some hp.length) := rfl
          rw [hstep]
          have hlen3 : (hp ++ [joinStates (hp.getD st []) (hp.getD r [])]).length
              = hp.length + 1 := by simp
          obtain ⟨h1, h2⟩ := ih (hp ++ [joinStates (hp.getD st []) (hp.getD r [])])
            (some hp.length) i (by omega)
          refine ⟨by omega, ?_⟩
          rw [h2, List.getElem?_append_left (by omega), hpget]

/-- C8: computing `IN[b]` in the zero analysis leaves every `OUT` dict in
the heap untouched — `_compute_in` copies each predecessor's `OUT`
(`dict(self.OUT[edge.src])`) before `refine_on_condition` writes through the
fresh reference, so the heap cell of every block's `OUT` (in particular
every predecessor's) holds the same dict afterwards. -/
theorem c8_compute_in_preserves_out (g : CFG) (heap : ZHeap) (OUTref : Nat → Nat)
    (b : Nat) (hvalid : ∀ blk, OUTref blk < heap.length) (p : Nat) :
    ((zeroComputeInH g heap OUTref b).1)[OUTref p]? = heap[OUTref p]? := by
  obtain ⟨h1, h2⟩ := zeroComputeInHGo_frame OUTref (g.inEdges b) heap none
    (OUTref p) (hvalid p)
  unfold zeroComputeInH
  cases hgo : zeroComputeInHGo OUTref (g.inEdges b) heap none with
  | mk hp acc =>
      cases acc with
      | some r => simpa [hgo] using h2
      | none =>
          rw [hgo] at h1 h2
          have hv := hvalid p
        -- appending the fresh `{}` does not touch lower indices
          simp only []
          rw [List.getElem?_append_left (by simp at h1 ⊢; omega), h2]

/-- Witness for C8: a concrete heap holding two `OUT` dicts; computing
`IN` of the then-block of `exIfThenDiv` (whose in-edge carries condition
`y`, hence refines a copy of `OUT[0]`) leaves cell 0 unchanged. -/
theorem c8_witness :
    ((zeroComputeInH (build exIfThenDiv) [[("y", ZeroState.zero)], []] (fun _ => 0) 2).1)[0]?
      = some [("y", ZeroState.zero)] := by
  have h := c8_compute_in_preserves_out (build exIfThenDiv)
    [[("y", ZeroState.zero)], []] (fun _ => 0) 2
    (fun blk => (show (0 : Nat) < 2 by decide)) 5
  exact h.trans rfl

/-! ## C9: dead-store stability under inserting a use -/

/-- Membership in the written-variables set, by the writing option. -/
theorem mem_varsWrittenStmt (s : Stmt) (v : String) :
    v ∈ varsWrittenStmt s ↔ varsWrittenOpt s = some v := by
  cases hvw : varsWrittenOpt s <;> simp [varsWrittenStmt, hvw, eq_comm]

/-- Only statements of the walked list are ever recorded as dead stores. -/
theorem mem_of_mem_collectGo (x : Stmt) (l : List Stmt) :
    ∀ live, x ∈ collectGo l live → x ∈ l := by
  induction l with
  | nil => intro live h; simp [collectGo] at h
  | cons s rest ih =>
      intro live h
      rw [collectGo] at h
      rcases List.mem_append.mp h with h | h
      · cases hvw : varsWrittenOpt s with
        | none => rw [hvw] at h; simp at h
        | some n =>
            rw [hvw] at h
            by_cases hn : n ∈ live
            · simp [hn] at h
            · simp [hn] at h
              simp [h]
      · exact List.mem_cons_of_mem s (ih _ h)

/-- The liveness walk splits over list concatenation. -/
theorem liveThrough_append (l₁ l₂ : List Stmt) (live : Finset String) :
    liveThrough (l₁ ++ l₂) live = liveThrough l₂ (liveThrough l₁ live) := by
  induction l₁ generalizing live with
  | nil => simp [liveThrough]
  | cons s rest ih => simp [liveThrough, ih]

/-- The collection walk splits over list concatenation. -/
theorem collectGo_append (l₁ l₂ : List Stmt) (live : Finset String) :
    collectGo (l₁ ++ l₂) live
      = collectGo l₁ live ++ collectGo l₂ (liveThrough l₁ live) := by
  induction l₁ generalizing live with
  | nil => simp [collectGo, liveThrough]
  | cons s rest ih =>
      simp [collectGo, liveThrough, ih, List.append_assoc]

/-- A live variable stays live across statements that do not write it. -/
theorem mem_liveThrough_of_not_written (v : String) (l : List Stmt) :
    ∀ live, v ∈ live → (∀ s ∈ l, v ∉ varsWrittenStmt s) → v ∈ liveThrough l live := by
  induction l with
  | nil => intro live hv _; exact hv
  | cons s rest ih =>
      intro live hv hl
      rw [liveThrough]
      refine ih _ ?_ (fun t ht => hl t (List.mem_cons_of_mem s ht))
      rw [liveStep]
      exact Finset.mem_union_left _
        (Finset.mem_sdiff.mpr ⟨hv, hl s (List.mem_cons_self s rest)⟩)

/-- A read variable is live before the reading statement. -/
theorem mem_liveStep_of_read (v : String) (s : Stmt) (live : Finset String)
    (h : v ∈ varsReadStmt s) : v ∈ liveStep live s :=
  Finset.mem_union_right _ h

/-- Core collection fact: a write whose variable is live just after it (in
the backward walk) is not recorded — provided the written statement occurs
nowhere else in the block. -/
theorem collect_skip_live (out : Finset String) (v : String) (w : Stmt)
    (pre post : List Stmt) (hw : varsWrittenOpt w = some v)
    (hwpre : w ∉ pre) (hwpost : w ∉ post)
    (hv : v ∈ liveThrough post.reverse out) :
    w ∉ collectGo (pre ++ w :: post).reverse out := by
  intro hmem
  rw [List.reverse_append, List.reverse_cons, collectGo_append, collectGo_append]
    at hmem
  rcases List.mem_append.mp hmem with hmem | hmem
  · rcases List.mem_append.mp hmem with hmem | hmem
    · exact hwpost (List.mem_reverse.mp (mem_of_mem_collectGo _ _ _ hmem))
    · rw [collectGo, hw] at hmem
      simp [hv, collectGo] at hmem
  · exact hwpre (List.mem_reverse.mp (mem_of_mem_collectGo _ _ _ hmem))

/-- Membership in a fold of unions. -/
theorem mem_foldl_union (l : List Nat) (f : Nat → Finset String)
    (A : Finset String) (x : String) :
    x ∈ l.foldl (fun a q => a ∪ f q) A ↔ x ∈ A ∨ ∃ q ∈ l, x ∈ f q := by
  induction l generalizing A with
  | nil => simp
  | cons p rest ih =>
      simp only [List.foldl_cons, ih, Finset.mem_union, List.mem_cons]
      constructor
      · rintro ((hA | hp) | ⟨q, hq, hx⟩)
        · exact Or.inl hA
        · exact Or.inr ⟨p, Or.inl rfl, hp⟩
        · exact Or.inr ⟨q, Or.inr hq, hx⟩
      · rintro (hA | ⟨q, rfl | hq, hx⟩)
        · exact Or.inl (Or.inl hA)
        · exact Or.inl (Or.inr hx)
        · exact Or.inr ⟨q, hq, hx⟩

/-- A variable read in block `c` before any write to it is in `IN[c]`. -/
theorem mem_dsComputeIn_of_read (g : CFG) (c : Nat) (out : Finset String)
    (v : String) (p₁ : List Stmt) (r : Stmt) (p₂ : List Stmt)
    (hs : g.stmtsOf c = p₁ ++ r :: p₂) (hr : v ∈ varsReadStmt r)
    (hp : ∀ s ∈ p₁, v ∉ varsWrittenStmt s) :
    v ∈ dsComputeIn g c out := by
  rw [dsComputeIn, hs, List.reverse_append, List.reverse_cons, liveThrough_append,
    liveThrough_append]
  refine mem_liveThrough_of_not_written v _ _ ?_ ?_
  · exact mem_liveStep_of_read v r _ hr
  · intro s hsr
    exact hp s (List.mem_reverse.mp hsr)

/-- Liveness flows backward along a chain of successors none of whose
interior blocks writes `v`: if `v` is in `IN` of the chain's last block, it
is in `OUT` of its first. -/
theorem mem_OUT_of_chain (g : CFG) (IN OUT : Nat → Finset String)
    (hfix : DSFixpoint g IN OUT) (v : String) :
    ∀ (cs : List Nat) (b c : Nat),
      List.Chain' (fun a c' => c' ∈ g.successors a) (b :: cs ++ [c]) →
      (∀ m ∈ cs, ∀ s ∈ g.stmtsOf m, v ∉ varsWrittenStmt s) →
      v ∈ IN c → v ∈ OUT b := by
  intro cs
  induction cs with
  | nil =>
      intro b c hchain hmids hc
      have hsucc : c ∈ g.successors b := (List.chain'_cons.mp hchain).1
      rw [(hfix b).1, dsUnionSucc, mem_foldl_union]
      exact Or.inr ⟨c, hsucc, hc⟩
  | cons m cs' ih =>
      intro b c hchain hmids hc
      rw [List.cons_append] at hchain
      replace hchain := List.chain'_cons.mp hchain
      have hOUTm : v ∈ OUT m :=
        ih m c hchain.2 (fun q hq => hmids q (List.mem_cons_of_mem m hq)) hc
      have hINm : v ∈ IN m := by
        rw [(hfix m).2, dsComputeIn]
        refine mem_liveThrough_of_not_written v _ _ hOUTm ?_
        intro s hsr
        exact hmids m (List.mem_cons_self m cs') s (List.mem_reverse.mp hsr)
      rw [(hfix b).1, dsUnionSucc, mem_foldl_union]
      exact Or.inr ⟨m, hchain.1, hINm⟩

/-- C9: dead-store detection is stable under inserting a use.  First part:
a reading statement `r` inserted in the same block between the write `w` of
`v` and the next write to `v` keeps `w` off the dead-store list, whatever
the block's `OUT` set is.  Second part: a read of `v` reachable through a
chain of blocks none of which writes `v` first (the write's own block
containing no later write of `v` either) keeps `w` off the dead-store list
at the liveness fixed point (`DSFixpoint` is exactly the condition under
which the `while changed` loop of `CFGDeadStoreAnalyzer` stops). -/
theorem c9_dead_store_insertion_stability :
    (∀ (g : CFG) (b : Nat) (outSet : Finset String) (v : String) (w r : Stmt)
        (pre mid1 rest : List Stmt),
        g.stmtsOf b = pre ++ w :: (mid1 ++ r :: rest) →
        varsWrittenOpt w = some v →
        v ∈ varsReadStmt r →
        (∀ s ∈ mid1, v ∉ varsWrittenStmt s) →
        w ∉ pre → w ∉ mid1 → w ≠ r → w ∉ rest →
        w ∉ collectDeadStores g b outSet) ∧
    (∀ (g : CFG) (IN OUT : Nat → Finset String) (b : Nat) (v : String) (w : Stmt)
        (pre post : List Stmt) (cs : List Nat) (c : Nat),
        DSFixpoint g IN OUT →
        g.stmtsOf b = pre ++ w :: post →
        varsWrittenOpt w = some v →
        (∀ s ∈ post, v ∉ varsWrittenStmt s) →
        List.Chain' (fun a c' => c' ∈ g.successors a) (b :: cs ++ [c]) →
        (∀ m ∈ cs, ∀ s ∈ g.stmtsOf m, v ∉ varsWrittenStmt s) →
        (∃ p₁ r p₂, g.stmtsOf c = p₁ ++ r :: p₂ ∧ v ∈ varsReadStmt r ∧
            ∀ s ∈ p₁, v ∉ varsWrittenStmt s) →
        w ∉ pre → w ∉ post →
        w ∉ collectDeadStores g b (OUT b)) := by
  constructor
  · intro g b outSet v w r pre mid1 rest hstmts hw hr hmid hwpre hwmid hwr hwrest
    rw [collectDeadStores, hstmts]
    refine collect_skip_live outSet v w pre (mid1 ++ r :: rest) hw hwpre ?_ ?_
    · intro hmem
      rcases List.mem_append.mp hmem with h | h
      · exact hwmid h
      · rcases List.mem_cons.mp h with h | h
        · exact hwr h
        · exact hwrest h
    · rw [List.reverse_append, List.reverse_cons, liveThrough_append,
        liveThrough_append]
      refine mem_liveThrough_of_not_written v _ _ ?_ ?_
      · exact mem_liveStep_of_read v r _ hr
      · intro s hsr
        exact hmid s (List.mem_reverse.mp hsr)
  · intro g IN OUT b v w pre post cs c hfix hstmts hw hpostw hchain hmids hread
      hwpre hwpost
    obtain ⟨p₁, r, p₂, hcs, hcr, hcp⟩ := hread
    have hINc : v ∈ IN c := by
      rw [(hfix c).2]
      exact mem_dsComputeIn_of_read g c (OUT c) v p₁ r p₂ hcs hcr hcp
    have hOUTb : v ∈ OUT b := mem_OUT_of_chain g IN OUT hfix v cs b c hchain hmids hINc
    rw [collectDeadStores, hstmts]
    refine collect_skip_live (OUT b) v w pre post hw hwpre hwpost ?_
    exact mem_liveThrough_of_not_written v _ _ hOUTb
      (fun s hsr => hpostw s (List.mem_reverse.mp hsr))

/-- Witness for C9: in `exDeadA` the initial write `int a = 1` is followed
(in the same block) by `print(a)` before `a = 2`, so it is never collected;
in `exDeadB` the write `a = 1` is read in the then-block reached through one
CFG edge, and at the liveness fixed point (checked explicitly) it is not
collected either. -/
theorem c9_witness :
    (Stmt.varDecl "int" "a" (some (.literal (.int 1)))
      ∉ collectDeadStores (build exDeadA) 0 ∅) ∧
    (Stmt.assign "a" (.literal (.int 1))
      ∉ collectDeadStores (build exDeadB) 0 {"a"}) := by
  constructor
  · exact c9_dead_store_insertion_stability.1 (build exDeadA) 0 ∅ "a"
      (.varDecl "int" "a" (some (.literal (.int 1)))) (.printStmt (.varExpr "a"))
      [] [] [.assign "a" (.literal (.int 2)), .returnStmt (.varExpr "a")]
      rfl rfl (by simp [varsReadStmt, varsReadExpr]) (by simp) (by simp) (by simp)
      (fun h => Stmt.noConfusion h) (by simp)
  · have hIN2 : dsComputeIn (build exDeadB) 2 (∅ : Finset String) = {"a"} := by
      rw [show dsComputeIn (build exDeadB) 2 (∅ : Finset String)
          = liveThrough [Stmt.printStmt (.varExpr "a")] ∅ from rfl]
      simp [liveThrough, liveStep, varsReadStmt, varsWrittenStmt, varsWrittenOpt,
        varsReadExpr]
    have hIN3 : dsComputeIn (build exDeadB) 3 (∅ : Finset String) = ∅ := by
      rw [show dsComputeIn (build exDeadB) 3 (∅ : Finset String)
          = liveThrough [Stmt.returnStmt (.literal (.int 0))] ∅ from rfl]
      simp [liveThrough, liveStep, varsReadStmt, varsWrittenStmt, varsWrittenOpt,
        varsReadExpr]
    have hIN0 : dsComputeIn (build exDeadB) 0 ({"a"} : Finset String) = {"c"} := by
      rw [show dsComputeIn (build exDeadB) 0 ({"a"} : Finset String)
          = liveThrough
              [Stmt.ifStmt (.varExpr "c") [.printStmt (.varExpr "a")] none,
               Stmt.assign "a" (.literal (.int 1))] {"a"} from rfl]
      simp only [liveThrough, liveStep, varsReadStmt, varsWrittenStmt, varsWrittenOpt]
      rw [show varsReadExpr (.varExpr "c") = {"c"} by simp [varsReadExpr]]
      decide
    have hfix : DSFixpoint (build exDeadB)
        (fun b => match b with | 0 => ({"c"} : Finset String) | 2 => {"a"} | _ => ∅)
        (fun b => match b with | 0 => ({"a"} : Finset String) | _ => ∅) := by
      intro b
      match b with
      | 0 => exact ⟨by decide, hIN0.symm⟩
      | 1 => exact ⟨by decide, by rfl⟩
      | 2 => exact ⟨by decide, hIN2.symm⟩
      | 3 => exact ⟨by decide, hIN3.symm⟩
      | n + 4 =>
          have hsucc : (build exDeadB).successors (n + 4) = [] := by
            rw [CFG.successors, CFG.outEdges]
            rw [show (build exDeadB).edges
                = [⟨0, 2, some (.varExpr "c"), some true⟩,
                   ⟨0, 3, some (.varExpr "c"), some false⟩,
                   ⟨2, 3, none, none⟩, ⟨3, 1, none, none⟩] from rfl]
            rw [List.filter_eq_nil.mpr ?_]
            · rfl
            · intro e he
              simp only [List.mem_cons, List.not_mem_nil, or_false] at he
              rcases he with rfl | rfl | rfl | rfl <;> simp <;> omega
          have hstmts : (build exDeadB).stmtsOf (n + 4) = [] := by
            rw [CFG.stmtsOf]
            apply List.getD_eq_default
            rw [show (build exDeadB).stmts.length = 4 from rfl]
            omega
          constructor
          · rw [dsUnionSucc, hsucc]
            rfl
          · rw [dsComputeIn, hstmts]
            rfl
    have hchain : List.Chain'
        (fun a c' => c' ∈ (build exDeadB).successors a) (0 :: [] ++ [2]) := by
      refine List.chain'_cons.mpr ⟨?_, List.chain'_singleton 2⟩
      decide
    have happ := c9_dead_store_insertion_stability.2 (build exDeadB)
      (fun b => match b with | 0 => ({"c"} : Finset String) | 2 => {"a"} | _ => ∅)
      (fun b => match b with | 0 => ({"a"} : Finset String) | _ => ∅)
      0 "a" (.assign "a" (.literal (.int 1)))
      [] [.ifStmt (.varExpr "c") [.printStmt (.varExpr "a")] none] [] 2
      hfix rfl rfl
      (by simp [varsWrittenStmt, varsWrittenOpt])
      hchain
      (by simp)
      ⟨[], .printStmt (.varExpr "a"), [], rfl, by simp [varsReadStmt, varsReadExpr],
        by simp⟩
      (by simp)
      (by simp)
    exact happ

/-! ## Builder metatheory: how each CFG operation changes the graph -/

theorem stmtsOf_appendStmt_self (g : CFG) (b : Nat) (s : Stmt)
    (h : b < g.stmts.length) :
    (g.appendStmt b s).stmtsOf b = g.stmtsOf b ++ [s] := by
  simp only [CFG.appendStmt, CFG.stmtsOf, List.getD_eq_getElem?_getD]
  rw [List.getElem?_set_eq_of_lt _ h]
  rfl

theorem stmtsOf_appendStmt_ne (g : CFG) (b : Nat) (s : Stmt) (b' : Nat)
    (h : b' ≠ b) :
    (g.appendStmt b s).stmtsOf b' = g.stmtsOf b' := by
  simp only [CFG.appendStmt, CFG.stmtsOf, List.getD_eq_getElem?_getD]
  rw [List.getElem?_set_ne (fun hh => h hh.symm)]

theorem stmtsOf_newBlock_self (g : CFG) (hlen : g.stmts.length = g.nblocks) :
    (g.newBlock).1.stmtsOf g.nblocks = [] := by
  simp only [CFG.newBlock, CFG.stmtsOf, List.getD_eq_getElem?_getD]
  rw [← hlen, List.getElem?_concat_length]
  rfl

theorem stmtsOf_newBlock_ne (g : CFG) (hlen : g.stmts.length = g.nblocks)
    (b : Nat) (h : b ≠ g.nblocks) :
    (g.newBlock).1.stmtsOf b = g.stmtsOf b := by
  simp only [CFG.newBlock, CFG.stmtsOf, List.getD_eq_getElem?_getD]
  rcases Nat.lt_or_ge b g.nblocks with hb | hb
  · rw [List.getElem?_append_left (by omega)]
  · rw [List.getElem?_eq_none (l := g.stmts ++ [[]]) (by simp; omega),
      List.getElem?_eq_none (by omega)]

theorem isReturnBlock_appendStmt_self (g : CFG) (b : Nat) (s : Stmt)
    (h : b < g.stmts.length) :
    (g.appendStmt b s).isReturnBlock b = isReturnStmt s := by
  rw [CFG.isReturnBlock, stmtsOf_appendStmt_self g b s h, List.getLast?_concat]

theorem isReturnBlock_appendStmt_ne (g : CFG) (b : Nat) (s : Stmt) (b' : Nat)
    (h : b' ≠ b) :
    (g.appendStmt b s).isReturnBlock b' = g.isReturnBlock b' := by
  rw [CFG.isReturnBlock, stmtsOf_appendStmt_ne g b s b' h, CFG.isReturnBlock]

theorem isReturnBlock_newBlock_self (g : CFG) (hlen : g.stmts.length = g.nblocks) :
    (g.newBlock).1.isReturnBlock g.nblocks = false := by
  rw [CFG.isReturnBlock, stmtsOf_newBlock_self g hlen]
  rfl

theorem isReturnBlock_newBlock_ne (g : CFG) (hlen : g.stmts.length = g.nblocks)
    (b : Nat) (h : b ≠ g.nblocks) :
    (g.newBlock).1.isReturnBlock b = g.isReturnBlock b := by
  rw [CFG.isReturnBlock, stmtsOf_newBlock_ne g hlen b h, CFG.isReturnBlock]

theorem outEdges_connect (g : CFG) (a b : Nat) (cond : Option Expr)
    (at' : Option Bool) (x : Nat) :
    (g.connect a b cond at').outEdges x
      = g.outEdges x ++ if a = x then [⟨a, b, cond, at'⟩] else [] := by
  by_cases ha : a = x <;>
    simp [CFG.outEdges, CFG.connect, List.filter_append, List.filter, ha]

theorem inEdges_connect (g : CFG) (a b : Nat) (cond : Option Expr)
    (at' : Option Bool) (x : Nat) :
    (g.connect a b cond at').inEdges x
      = g.inEdges x ++ if b = x then [⟨a, b, cond, at'⟩] else [] := by
  by_cases hb : b = x <;>
    simp [CFG.inEdges, CFG.connect, List.filter_append, List.filter, hb]

/-- Appending a non-`return` statement to the open block keeps the builder
invariants and the open conditions. -/
theorem inv_appendStmt (g : CFG) (cur : Nat) (s : Stmt)
    (hg : BuilderInv g) (hc : OpenOK g cur) (hs : isReturnStmt s = false) :
    BuilderInv (g.appendStmt cur s) ∧ OpenOK (g.appendStmt cur s) cur := by
  have hlen : cur < g.stmts.length := by rw [hg.stlen]; exact hc.lt
  constructor
  · refine ⟨hg.entry0, hg.exit1, hg.nb, ?_, hg.edst, hg.esrc, ?_, ?_⟩
    · simp [CFG.appendStmt, hg.stlen]
    · rw [stmtsOf_appendStmt_ne g cur s 1 (fun hh => hc.ne1 hh.symm)]
      exact hg.exitEmpty
    · intro b hb
      by_cases hbc : b = cur
      · subst hbc
        rw [isReturnBlock_appendStmt_self g b s hlen, hs] at hb
        cases hb
      · rw [isReturnBlock_appendStmt_ne g cur s b hbc] at hb
        exact hg.retOut b hb
  · exact ⟨hc.lt, hc.ne1, hc.noOut,
      by rw [isReturnBlock_appendStmt_self g cur s hlen]; exact hs⟩

/-- Creating a fresh block keeps the builder invariants; the fresh block is
open. -/
theorem inv_newBlock (g : CFG) (hg : BuilderInv g) :
    BuilderInv (g.newBlock).1 ∧ OpenOK (g.newBlock).1 g.nblocks := by
  have hnb := hg.nb
  constructor
  · refine ⟨hg.entry0, hg.exit1, by simp [CFG.newBlock]; omega, ?_, ?_, ?_, ?_, ?_⟩
    · simp [CFG.newBlock, hg.stlen]
    · intro e he
      obtain ⟨h1, h2⟩ := hg.edst e he
      exact ⟨h1, by simp [CFG.newBlock]; omega⟩
    · intro e he
      obtain ⟨h1, h2⟩ := hg.esrc e he
      exact ⟨h1, by simp [CFG.newBlock]; omega⟩
    · rw [stmtsOf_newBlock_ne g hg.stlen 1 (by have := hg.nb; omega)]
      exact hg.exitEmpty
    · intro b hb
      by_cases hbn : b = g.nblocks
      · subst hbn
        rw [isReturnBlock_newBlock_self g hg.stlen] at hb
        cases hb
      · rw [isReturnBlock_newBlock_ne g hg.stlen b hbn] at hb
        exact hg.retOut b hb
  · refine ⟨by simp [CFG.newBlock], by omega, ?_, isReturnBlock_newBlock_self g hg.stlen⟩
    rw [show (g.newBlock).1.outEdges g.nblocks = g.edges.filter (·.src = g.nblocks) from rfl]
    rw [List.filter_eq_nil.mpr ?_]
    intro e he
    have := (hg.esrc e he).2
    simp
    omega

/-- Connecting from a non-`return` block to a real non-`entry` block keeps
the builder invariants. -/
theorem inv_connect (g : CFG) (a b : Nat) (cond : Option Expr) (at' : Option Bool)
    (hg : BuilderInv g) (ha1 : a ≠ 1) (haN : a < g.nblocks)
    (hb0 : b ≠ 0) (hbN : b < g.nblocks) (haR : g.isReturnBlock a = false) :
    BuilderInv (g.connect a b cond at') := by
  refine ⟨hg.entry0, hg.exit1, hg.nb, hg.stlen, ?_, ?_, hg.exitEmpty, ?_⟩
  · intro e he
    rcases List.mem_append.mp he with he | he
    · exact hg.edst e he
    · simp at he
      subst he
      exact ⟨hb0, hbN⟩
  · intro e he
    rcases List.mem_append.mp he with he | he
    · exact hg.esrc e he
    · simp at he
      subst he
      exact ⟨ha1, haN⟩
  · intro x hx
    have hx' : (g : CFG).isReturnBlock x = true := hx
    have hxa : x ≠ a := fun hh => by rw [hh, haR] at hx'; cases hx'
    rw [outEdges_connect, if_neg (fun hh => hxa hh.symm), List.append_nil]
    exact hg.retOut x hx'

/-- `_build_return`: appending the `return` and connecting to `exit` keeps
the builder invariants (and closes the path). -/
theorem inv_buildReturn (g : CFG) (cur : Nat) (v : Expr)
    (hg : BuilderInv g) (hc : OpenOK g cur) :
    BuilderInv ((g.appendStmt cur (.returnStmt v)).connect cur g.exit) := by
  have hlen : cur < g.stmts.length := by rw [hg.stlen]; exact hc.lt
  set g1 := g.appendStmt cur (.returnStmt v) with hg1
  have hstlen1 : g1.stmts.length = g1.nblocks := by
    simp [hg1, CFG.appendStmt, hg.stlen]
  refine ⟨hg.entry0, hg.exit1, hg.nb, hstlen1, ?_, ?_, ?_, ?_⟩
  · intro e he
    rcases List.mem_append.mp he with he | he
    · exact hg.edst e he
    · simp at he
      subst he
      refine ⟨?_, ?_⟩
      · show g.exit ≠ 0
        rw [hg.exit1]
        omega
      · show g.exit < g.nblocks
        rw [hg.exit1]
        have := hg.nb
        omega
  · intro e he
    rcases List.mem_append.mp he with he | he
    · exact hg.esrc e he
    · simp at he
      subst he
      exact ⟨hc.ne1, hc.lt⟩
  · show (g1.connect cur g.exit).stmtsOf 1 = []
    rw [show (g1.connect cur g.exit).stmtsOf 1 = g1.stmtsOf 1 from rfl,
      stmtsOf_appendStmt_ne g cur _ 1 (fun hh => hc.ne1 hh.symm)]
    exact hg.exitEmpty
  · intro b hb
    have hb' : g1.isReturnBlock b = true := hb
    rw [show (g1.connect cur g.exit).outEdges b
        = (g1.connect cur g.exit).outEdges b from rfl]
    rw [show (g1.connect cur g.exit) = g1.connect cur g.exit from rfl]
    rw [outEdges_connect]
    by_cases hbc : b = cur
    · subst hbc
      rw [if_pos rfl, show g1.outEdges b = g.outEdges b from rfl, hc.noOut,
        hg.exit1, List.nil_append]
    · rw [isReturnBlock_appendStmt_ne g cur _ b hbc] at hb'
      have := hg.retOut b hb'
      rw [if_neg (fun hh => hbc hh.symm), List.append_nil,
        show g1.outEdges b = g.outEdges b from rfl, this]

/-- No block at or past the current end has an out-edge. -/
theorem outEdges_eq_nil_big (g : CFG) (hg : BuilderInv g) (x : Nat)
    (hx : g.nblocks ≤ x) : g.outEdges x = [] := by
  rw [CFG.outEdges, List.filter_eq_nil.mpr ?_]
  intro e he
  have := (hg.esrc e he).2
  simp
  omega

/-- No block at or past the current end has an in-edge. -/
theorem inEdges_eq_nil_big (g : CFG) (hg : BuilderInv g) (x : Nat)
    (hx : g.nblocks ≤ x) : g.inEdges x = [] := by
  rw [CFG.inEdges, List.filter_eq_nil.mpr ?_]
  intro e he
  have hlt := (hg.edst e he).2
  simp only [decide_eq_true_eq]
  omega

/-- A real block with no statements and no out-edges is open. -/
theorem openOK_fresh (g : CFG) (x : Nat) (hx : x < g.nblocks) (hx1 : x ≠ 1)
    (hstmts : g.stmtsOf x = []) (hout : g.outEdges x = []) : OpenOK g x :=
  ⟨hx, hx1, hout, by rw [CFG.isReturnBlock, hstmts]; rfl⟩

theorem openOK_newBlock (g : CFG) (hg : BuilderInv g) (x : Nat)
    (hc : OpenOK g x) : OpenOK (g.newBlock).1 x := by
  refine ⟨by have := hc.lt; simp [CFG.newBlock]; omega, hc.ne1, hc.noOut, ?_⟩
  rw [isReturnBlock_newBlock_ne g hg.stlen x (by have := hc.lt; omega)]
  exact hc.notRet

theorem openOK_connect (g : CFG) (a b : Nat) (cond : Option Expr)
    (at' : Option Bool) (x : Nat) (hc : OpenOK g x) (ha : a ≠ x) :
    OpenOK (g.connect a b cond at') x := by
  refine ⟨hc.lt, hc.ne1, ?_, hc.notRet⟩
  rw [outEdges_connect, if_neg ha, List.append_nil]
  exact hc.noOut

theorem openOK_appendStmt_ne (g : CFG) (b : Nat) (s : Stmt) (x : Nat)
    (hc : OpenOK g x) (hb : x ≠ b) : OpenOK (g.appendStmt b s) x := by
  refine ⟨hc.lt, hc.ne1, hc.noOut, ?_⟩
  rw [isReturnBlock_appendStmt_ne g b s x hb]
  exact hc.notRet

/-- A builder call leaves the out-edges of old blocks other than its open
block untouched. -/
theorem buildPost_outEdges (g g' : CFG) (cur : Nat) (r : Option Nat)
    (hp : BuildPost g g' cur r) (x : Nat) (hx : x ≠ cur) (hlt : x < g.nblocks) :
    g'.outEdges x = g.outEdges x := by
  obtain ⟨-, -, -, ⟨new, hnew, hbound⟩, -⟩ := hp
  have hnil : new.filter (fun e => e.src = x) = [] := by
    rw [List.filter_eq_nil]
    intro e he
    rcases (hbound e he).2 with h | h <;>
      (simp only [decide_eq_true_eq]; omega)
  rw [CFG.outEdges, CFG.outEdges, hnew, List.filter_append, hnil, List.append_nil]

/-- A builder call preserves openness of old blocks other than its open
block. -/
theorem openOK_buildPost (g g' : CFG) (cur : Nat) (r : Option Nat)
    (hp : BuildPost g g' cur r) (x : Nat) (hx : x ≠ cur) (hlt : x < g.nblocks)
    (ho : OpenOK g x) : OpenOK g' x := by
  have hout := buildPost_outEdges g g' cur r hp x hx hlt
  obtain ⟨-, hmono, -, -, hstmts⟩ := hp
  refine ⟨by omega, ho.ne1, ?_, ?_⟩
  · rw [hout]
    exact ho.noOut
  · rw [CFG.isReturnBlock, hstmts x hx hlt, ← CFG.isReturnBlock]
    exact ho.notRet

/-- Composing two successive builder calls. -/
theorem buildPost_comp (g g₁ g₂ : CFG) (cur c₁ : Nat) (r₂ : Option Nat)
    (h₁ : BuildPost g g₁ cur (some c₁)) (h₂ : BuildPost g₁ g₂ c₁ r₂) :
    BuildPost g g₂ cur r₂ := by
  obtain ⟨hi₁, hm₁, hr₁, ⟨n₁, he₁, hb₁⟩, hs₁⟩ := h₁
  obtain ⟨hi₂, hm₂, hr₂, ⟨n₂, he₂, hb₂⟩, hs₂⟩ := h₂
  obtain ⟨ho₁, hc₁⟩ := hr₁ c₁ rfl
  refine ⟨hi₂, by omega, ?_, ?_, ?_⟩
  · intro c hcr
    obtain ⟨ho₂, hc₂⟩ := hr₂ c hcr
    refine ⟨ho₂, ?_⟩
    rcases hc₂ with rfl | hge
    · exact hc₁
    · right
      omega
  · refine ⟨n₁ ++ n₂, by rw [he₂, he₁, List.append_assoc], ?_⟩
    intro e he
    rcases List.mem_append.mp he with he | he
    · exact hb₁ e he
    · obtain ⟨hd, hs⟩ := hb₂ e he
      constructor
      · rcases hd with hd | hd
        · exact Or.inl hd
        · right
          omega
      · rcases hs with hs | hs
        · rcases hc₁ with rfl | hge
          · exact Or.inl hs
          · right
            omega
        · right
          omega
  · intro b hbc hbn
    have hb₁' : b ≠ c₁ := by
      rcases hc₁ with rfl | hge
      · exact hbc
      · omega
    rw [hs₂ b hb₁' (by omega), hs₁ b hbc hbn]

/-- `_build_simple`: appending a straight-line statement. -/
theorem buildPost_append (g : CFG) (cur : Nat) (s : Stmt) (hg : BuilderInv g)
    (hc : OpenOK g cur) (hs : isReturnStmt s = false) :
    BuildPost g (g.appendStmt cur s) cur (some cur) := by
  obtain ⟨hinv, hopen⟩ := inv_appendStmt g cur s hg hc hs
  refine ⟨hinv, Nat.le_refl _, ?_, ?_, ?_⟩
  · intro c hcq
    cases Option.some.inj hcq
    exact ⟨hopen, Or.inl rfl⟩
  · exact ⟨[], (List.append_nil _).symm, fun e he => absurd he (List.not_mem_nil e)⟩
  · intro b hb hbn
    exact stmtsOf_appendStmt_ne g cur s b hb

/-- `_build_return`. -/
theorem buildPost_return (g : CFG) (cur : Nat) (v : Expr) (hg : BuilderInv g)
    (hc : OpenOK g cur) :
    BuildPost g ((g.appendStmt cur (.returnStmt v)).connect cur g.exit) cur none := by
  refine ⟨inv_buildReturn g cur v hg hc, Nat.le_refl _, ?_, ?_, ?_⟩
  · intro c hcq
    exact Option.noConfusion hcq
  · refine ⟨[⟨cur, g.exit, none, none⟩], rfl, ?_⟩
    intro e he
    simp only [List.mem_singleton] at he
    subst he
    refine ⟨Or.inl ?_, Or.inl rfl⟩
    show g.exit = 1
    exact hg.exit1
  · intro b hb hbn
    exact stmtsOf_appendStmt_ne g cur _ b hb

/-- What the pre-body part of `_build_while` produces: the three fresh
blocks, the three header edges, the marker in `cond_block`, and nothing
else. -/
theorem whileHeader_spec (c : Expr) (body : List Stmt) (g : CFG) (cur : Nat)
    (hg : BuilderInv g) (hc : OpenOK g cur) :
    BuilderInv (whileHeader c body g cur) ∧
    OpenOK (whileHeader c body g cur) (g.nblocks + 1) ∧
    (whileHeader c body g cur).nblocks = g.nblocks + 3 ∧
    (whileHeader c body g cur).edges
      = g.edges ++ [⟨cur, g.nblocks, none, none⟩,
                    ⟨g.nblocks, g.nblocks + 1, some c, some true⟩,
                    ⟨g.nblocks, g.nblocks + 2, some c, some false⟩] ∧
    (∀ b, b ≠ g.nblocks → (whileHeader c body g cur).stmtsOf b = g.stmtsOf b) ∧
    OpenOK (whileHeader c body g cur) (g.nblocks + 2) := by
  have hnb := hg.nb
  have hcur := hc.lt
  -- three fresh blocks
  obtain ⟨hg1, ho1⟩ := inv_newBlock g hg
  set g1 := (g.newBlock).1 with hG1
  have hg1n : g1.nblocks = g.nblocks + 1 := rfl
  obtain ⟨hg2, ho2⟩ := inv_newBlock g1 hg1
  set g2 := (g1.newBlock).1 with hG2
  have hg2n : g2.nblocks = g.nblocks + 2 := rfl
  obtain ⟨hg3, ho3⟩ := inv_newBlock g2 hg2
  set g3 := (g2.newBlock).1 with hG3
  have hg3n : g3.nblocks = g.nblocks + 3 := rfl
  have hc3 : OpenOK g3 cur :=
    openOK_newBlock g2 hg2 cur (openOK_newBlock g1 hg1 cur (openOK_newBlock g hg cur hc))
  have hoCond3 : OpenOK g3 g.nblocks :=
    openOK_newBlock g2 hg2 g.nblocks (openOK_newBlock g1 hg1 g.nblocks ho1)
  -- connect cur → cond
  have hcurN : cur ≠ g.nblocks := by omega
  set g4 := g3.connect cur g.nblocks with hG4
  have hg4 : BuilderInv g4 :=
    inv_connect g3 cur g.nblocks none none hg3 hc.ne1 (by omega) (by omega) (by omega)
      hc3.notRet
  have hoCond4 : OpenOK g4 g.nblocks :=
    openOK_connect g3 cur g.nblocks none none g.nblocks hoCond3 hcurN
  -- marker into cond
  set g5 := g4.appendStmt g.nblocks (.whileStmt c body) with hG5
  obtain ⟨hg5, hoCond5⟩ := inv_appendStmt g4 g.nblocks (.whileStmt c body) hg4 hoCond4 rfl
  -- cond → body (true)
  set g6 := g5.connect g.nblocks (g.nblocks + 1) (some c) (some true) with hG6
  have hg6 : BuilderInv g6 :=
    inv_connect g5 g.nblocks (g.nblocks + 1) (some c) (some true) hg5 (by omega)
      (by rw [show g5.nblocks = g.nblocks + 3 from rfl]; omega) (by omega)
      (by rw [show g5.nblocks = g.nblocks + 3 from rfl]; omega) hoCond5.notRet
  have hoCond6 : g6.isReturnBlock g.nblocks = false := hoCond5.notRet
  -- cond → after (false)
  have hg7 : BuilderInv (whileHeader c body g cur) := by
    rw [show whileHeader c body g cur
        = g6.connect g.nblocks (g.nblocks + 2) (some c) (some false) from rfl]
    exact inv_connect g6 g.nblocks (g.nblocks + 2) (some c) (some false) hg6 (by omega)
      (by rw [show g6.nblocks = g.nblocks + 3 from rfl]; omega) (by omega)
      (by rw [show g6.nblocks = g.nblocks + 3 from rfl]; omega) hoCond6
  -- statements: only `cond` gained one
  have hstGen : ∀ b, b ≠ g.nblocks →
      (whileHeader c body g cur).stmtsOf b = g.stmtsOf b := by
    intro b hb
    rw [show (whileHeader c body g cur).stmtsOf b = g5.stmtsOf b from rfl, hG5,
      stmtsOf_appendStmt_ne g4 g.nblocks _ b hb,
      show g4.stmtsOf b = g3.stmtsOf b from rfl]
    by_cases hb2 : b = g.nblocks + 2
    · subst hb2
      have h2 := stmtsOf_newBlock_self g2 hg2.stlen
      rw [hg2n] at h2
      rw [hG3, h2, CFG.stmtsOf, List.getD_eq_default _ _ (by rw [hg.stlen]; omega)]
    · rw [hG3, stmtsOf_newBlock_ne g2 hg2.stlen b (by rw [hg2n]; omega)]
      by_cases hb1 : b = g.nblocks + 1
      · subst hb1
        have h1 := stmtsOf_newBlock_self g1 hg1.stlen
        rw [hg1n] at h1
        rw [hG2, h1, CFG.stmtsOf, List.getD_eq_default _ _ (by rw [hg.stlen]; omega)]
      · rw [hG2, stmtsOf_newBlock_ne g1 hg1.stlen b (by rw [hg1n]; omega), hG1,
          stmtsOf_newBlock_ne g hg.stlen b hb]
  have hstAfter : (whileHeader c body g cur).stmtsOf (g.nblocks + 2) = [] := by
    rw [hstGen (g.nblocks + 2) (by omega), CFG.stmtsOf,
      List.getD_eq_default _ _ (by rw [hg.stlen]; omega)]
  -- body block is open in the header graph
  have hoBody : OpenOK (whileHeader c body g cur) (g.nblocks + 1) := by
    refine openOK_fresh _ _ (by rw [show (whileHeader c body g cur).nblocks
        = g.nblocks + 3 from rfl]; omega) (by omega) ?_ ?_
    · rw [hstGen (g.nblocks + 1) (by omega), CFG.stmtsOf,
        List.getD_eq_default _ _ (by rw [hg.stlen]; omega)]
    · rw [show (whileHeader c body g cur).outEdges (g.nblocks + 1)
          = (g6.connect g.nblocks (g.nblocks + 2) (some c) (some false)).outEdges
              (g.nblocks + 1) from rfl,
        outEdges_connect, if_neg (by omega), List.append_nil, hG6,
        outEdges_connect, if_neg (by omega), List.append_nil,
        show g5.outEdges (g.nblocks + 1) = g4.outEdges (g.nblocks + 1) from rfl, hG4,
        outEdges_connect, if_neg (by omega), List.append_nil]
      rw [show g3.outEdges (g.nblocks + 1) = g.outEdges (g.nblocks + 1) from rfl]
      exact outEdges_eq_nil_big g hg (g.nblocks + 1) (by omega)
  have hoAfter : OpenOK (whileHeader c body g cur) (g.nblocks + 2) := by
    refine openOK_fresh _ _ (by rw [show (whileHeader c body g cur).nblocks
        = g.nblocks + 3 from rfl]; omega) (by omega) hstAfter ?_
    rw [show (whileHeader c body g cur).outEdges (g.nblocks + 2)
          = (g6.connect g.nblocks (g.nblocks + 2) (some c) (some false)).outEdges
              (g.nblocks + 2) from rfl,
      outEdges_connect, if_neg (by omega), List.append_nil, hG6,
      outEdges_connect, if_neg (by omega), List.append_nil,
      show g5.outEdges (g.nblocks + 2) = g4.outEdges (g.nblocks + 2) from rfl, hG4,
      outEdges_connect, if_neg (by omega), List.append_nil]
    rw [show g3.outEdges (g.nblocks + 2) = g.outEdges (g.nblocks + 2) from rfl]
    exact outEdges_eq_nil_big g hg (g.nblocks + 2) (by omega)
  refine ⟨hg7, hoBody, rfl, ?_, hstGen, hoAfter⟩
  show ((g3.connect cur g.nblocks).appendStmt g.nblocks (.whileStmt c body)
      |>.connect g.nblocks (g.nblocks + 1) (some c) (some true)
      |>.connect g.nblocks (g.nblocks + 2) (some c) (some false)).edges = _
  simp [CFG.connect, CFG.appendStmt, hG3, hG2, hG1, CFG.newBlock]

/-! ### Closing an optionally-open path -/

theorem connectOpt_nblocks (eo : Option Nat) (g : CFG) (j : Nat) :
    (connectOpt eo g j).nblocks = g.nblocks := by
  cases eo <;> rfl

theorem connectOpt_stmtsOf (eo : Option Nat) (g : CFG) (j b : Nat) :
    (connectOpt eo g j).stmtsOf b = g.stmtsOf b := by
  cases eo <;> rfl

theorem connectOpt_edges (eo : Option Nat) (g : CFG) (j : Nat) :
    ∃ opt, (connectOpt eo g j).edges = g.edges ++ opt ∧
      ∀ e ∈ opt, e.dst = j ∧ ∃ x, eo = some x ∧ e.src = x := by
  cases eo with
  | none => exact ⟨[], (List.append_nil _).symm, fun e he => absurd he (List.not_mem_nil e)⟩
  | some x =>
      refine ⟨[⟨x, j, none, none⟩], rfl, ?_⟩
      intro e he
      simp only [List.mem_singleton] at he
      subst he
      exact ⟨rfl, x, rfl, rfl⟩

theorem inv_connectOpt (eo : Option Nat) (g : CFG) (j : Nat) (hg : BuilderInv g)
    (hj0 : j ≠ 0) (hjN : j < g.nblocks)
    (ho : ∀ x, eo = some x → OpenOK g x) : BuilderInv (connectOpt eo g j) := by
  cases eo with
  | none => exact hg
  | some x =>
      have hx := ho x rfl
      exact inv_connect g x j none none hg hx.ne1 hx.lt hj0 hjN hx.notRet

theorem openOK_connectOpt (eo : Option Nat) (g : CFG) (j x : Nat) (hc : OpenOK g x)
    (hne : ∀ y, eo = some y → y ≠ x) : OpenOK (connectOpt eo g j) x := by
  cases eo with
  | none => exact hc
  | some y => exact openOK_connect g y j none none x hc (hne y rfl)

theorem inEdges_connectOpt_self (eo : Option Nat) (g : CFG) (j : Nat) :
    (connectOpt eo g j).inEdges j
      = g.inEdges j ++ (eo.map fun x => CFGEdge.mk x j none none).toList := by
  cases eo with
  | none => exact (List.append_nil _).symm
  | some x =>
      rw [show connectOpt (some x) g j = g.connect x j from rfl,
        inEdges_connect, if_pos rfl]
      rfl

/-! ### The `_build_if` header -/

/-- What the pre-branch part of `_build_if` produces: the marker in the
current block, the two fresh blocks (`then` open, `join` open), the single
true edge, and nothing else. -/
theorem ifHeader_spec (c : Expr) (tb : List Stmt) (eb : Option (List Stmt))
    (g : CFG) (cur : Nat) (hg : BuilderInv g) (hc : OpenOK g cur) :
    BuilderInv (ifHeader c tb eb g cur) ∧
    OpenOK (ifHeader c tb eb g cur) g.nblocks ∧
    (ifHeader c tb eb g cur).nblocks = g.nblocks + 2 ∧
    (ifHeader c tb eb g cur).edges
      = g.edges ++ [⟨cur, g.nblocks, some c, some true⟩] ∧
    (∀ b, b ≠ cur → (ifHeader c tb eb g cur).stmtsOf b = g.stmtsOf b) ∧
    OpenOK (ifHeader c tb eb g cur) (g.nblocks + 1) ∧
    (ifHeader c tb eb g cur).isReturnBlock cur = false := by
  have hnb := hg.nb
  have hcur := hc.lt
  obtain ⟨hg0, hc0⟩ := inv_appendStmt g cur (.ifStmt c tb eb) hg hc rfl
  set g0 := g.appendStmt cur (.ifStmt c tb eb) with hG0
  have hg0n : g0.nblocks = g.nblocks := rfl
  obtain ⟨hg1, ho1⟩ := inv_newBlock g0 hg0
  set g1 := (g0.newBlock).1 with hG1
  have hg1n : g1.nblocks = g.nblocks + 1 := rfl
  obtain ⟨hg2, ho2⟩ := inv_newBlock g1 hg1
  set g2 := (g1.newBlock).1 with hG2
  have hg2n : g2.nblocks = g.nblocks + 2 := rfl
  have hoThen2 : OpenOK g2 g.nblocks := openOK_newBlock g1 hg1 g.nblocks ho1
  have hoJoin2 : OpenOK g2 (g.nblocks + 1) := ho2
  have hcur2 : OpenOK g2 cur :=
    openOK_newBlock g1 hg1 cur (openOK_newBlock g0 hg0 cur hc0)
  have hIH : BuilderInv (ifHeader c tb eb g cur) := by
    rw [show ifHeader c tb eb g cur
        = g2.connect cur g.nblocks (some c) (some true) from rfl]
    exact inv_connect g2 cur g.nblocks (some c) (some true) hg2 hc.ne1
      (by rw [hg2n]; omega) (by omega) (by rw [hg2n]; omega) hcur2.notRet
  have hoThen : OpenOK (ifHeader c tb eb g cur) g.nblocks := by
    rw [show ifHeader c tb eb g cur
        = g2.connect cur g.nblocks (some c) (some true) from rfl]
    exact openOK_connect g2 cur g.nblocks (some c) (some true) g.nblocks hoThen2
      (by omega)
  have hoJoin : OpenOK (ifHeader c tb eb g cur) (g.nblocks + 1) := by
    rw [show ifHeader c tb eb g cur
        = g2.connect cur g.nblocks (some c) (some true) from rfl]
    exact openOK_connect g2 cur g.nblocks (some c) (some true) (g.nblocks + 1)
      hoJoin2 (by omega)
  have hstGen : ∀ b, b ≠ cur →
      (ifHeader c tb eb g cur).stmtsOf b = g.stmtsOf b := by
    intro b hb
    rw [show (ifHeader c tb eb g cur).stmtsOf b = g2.stmtsOf b from rfl]
    by_cases hb1 : b = g.nblocks + 1
    · subst hb1
      have h1 := stmtsOf_newBlock_self g1 hg1.stlen
      rw [hg1n] at h1
      rw [hG2, h1, CFG.stmtsOf, List.getD_eq_default _ _ (by rw [hg.stlen]; omega)]
    · rw [hG2, stmtsOf_newBlock_ne g1 hg1.stlen b (by rw [hg1n]; omega)]
      by_cases hb0 : b = g.nblocks
      · subst hb0
        have h0 := stmtsOf_newBlock_self g0 hg0.stlen
        rw [hg0n] at h0
        rw [hG1, h0, CFG.stmtsOf, List.getD_eq_default _ _ hg.stlen.le]
      · rw [hG1, stmtsOf_newBlock_ne g0 hg0.stlen b (by rw [hg0n]; omega), hG0,
          stmtsOf_appendStmt_ne g cur _ b hb]
  refine ⟨hIH, hoThen, rfl, rfl, hstGen, hoJoin, ?_⟩
  show g2.isReturnBlock cur = false
  exact hcur2.notRet

/-! ### Reduction of `buildStmt` through the headers -/

/-- `_build_while`, decomposed: the header, then the body from `body_block`,
then the optional back-edge into `cond_block`; `after_block` stays open. -/
theorem buildStmt_while_red (c : Expr) (body : List Stmt) (g : CFG) (cur : Nat)
    (g' : CFG) (eo : Option Nat)
    (hB : buildBlock body (whileHeader c body g cur) (g.nblocks + 1) = (g', eo)) :
    buildStmt (.whileStmt c body) g cur
      = (connectOpt eo g' g.nblocks, some (g.nblocks + 2)) := by
  have h0 : buildStmt (.whileStmt c body) g cur
      = (connectOpt (buildBlock body (whileHeader c body g cur) (g.nblocks + 1)).2
          (buildBlock body (whileHeader c body g cur) (g.nblocks + 1)).1 g.nblocks,
        some (g.nblocks + 2)) := rfl
  rw [h0, hB]

/-- `_build_if` with no else-branch, decomposed: the header, the then-branch
from `then_block`, the false edge `current → join_block`, and the optional
edge from the then-tail into `join_block`. -/
theorem buildStmt_ifNone_red (c : Expr) (tb : List Stmt) (g : CFG) (cur : Nat)
    (g' : CFG) (eo : Option Nat)
    (hB : buildBlock tb (ifHeader c tb none g cur) g.nblocks = (g', eo)) :
    buildStmt (.ifStmt c tb none) g cur
      = (connectOpt eo (g'.connect cur (g.nblocks + 1) (some c) (some false))
          (g.nblocks + 1),
        some (g.nblocks + 1)) := by
  have h0 : buildStmt (.ifStmt c tb none) g cur
      = (connectOpt (buildBlock tb (ifHeader c tb none g cur) g.nblocks).2
          ((buildBlock tb (ifHeader c tb none g cur) g.nblocks).1.connect cur
            (g.nblocks + 1) (some c) (some false))
          (g.nblocks + 1),
        some (g.nblocks + 1)) := rfl
  rw [h0, hB]

/-- `_build_if` with an else-branch, decomposed: the header, the then-branch
from `then_block`, a fresh `else_block` with the false edge into it, the
else-branch from `else_block`, then the optional joins of the two tails. -/
theorem buildStmt_ifSome_red (c : Expr) (tb els : List Stmt) (g : CFG) (cur : Nat)
    (gT : CFG) (eoT : Option Nat) (gE : CFG) (eoE : Option Nat)
    (hT : buildBlock tb (ifHeader c tb (some els) g cur) g.nblocks = (gT, eoT))
    (hE : buildBlock els
        ((gT.newBlock).1.connect cur gT.nblocks (some c) (some false))
        gT.nblocks = (gE, eoE)) :
    buildStmt (.ifStmt c tb (some els)) g cur
      = (connectOpt eoE (connectOpt eoT gE (g.nblocks + 1)) (g.nblocks + 1),
        some (g.nblocks + 1)) := by
  have h0 : buildStmt (.ifStmt c tb (some els)) g cur
      = (connectOpt
          (buildBlock els
            (((buildBlock tb (ifHeader c tb (some els) g cur) g.nblocks).1.newBlock).1.connect
              cur (buildBlock tb (ifHeader c tb (some els) g cur) g.nblocks).1.nblocks
              (some c) (some false))
            (buildBlock tb (ifHeader c tb (some els) g cur) g.nblocks).1.nblocks).2
          (connectOpt (buildBlock tb (ifHeader c tb (some els) g cur) g.nblocks).2
            (buildBlock els
              (((buildBlock tb (ifHeader c tb (some els) g cur) g.nblocks).1.newBlock).1.connect
                cur (buildBlock tb (ifHeader c tb (some els) g cur) g.nblocks).1.nblocks
                (some c) (some false))
              (buildBlock tb (ifHeader c tb (some els) g cur) g.nblocks).1.nblocks).1
            (g.nblocks + 1))
          (g.nblocks + 1),
        some (g.nblocks + 1)) := rfl
  rw [h0, hT, hE]

/-- The empty statement list builds nothing. -/
theorem buildPost_refl (g : CFG) (cur : Nat) (hg : BuilderInv g)
    (hc : OpenOK g cur) : BuildPost g g cur (some cur) :=
  ⟨hg, Nat.le_refl _,
   fun c hcq => by cases Option.some.inj hcq; exact ⟨hc, Or.inl rfl⟩,
   ⟨[], (List.append_nil _).symm, fun e he => absurd he (List.not_mem_nil e)⟩,
   fun _ _ _ => rfl⟩

/-- `_build_while` satisfies the builder postcondition, given that building
the loop body does. -/
theorem buildPost_while (c : Expr) (body : List Stmt) (g : CFG) (cur : Nat)
    (hg : BuilderInv g) (hc : OpenOK g cur)
    (ih : ∀ g₀ c₀, BuilderInv g₀ → OpenOK g₀ c₀ →
      BuildPost g₀ (buildBlock body g₀ c₀).1 c₀ (buildBlock body g₀ c₀).2) :
    BuildPost g (buildStmt (.whileStmt c body) g cur).1 cur
      (buildStmt (.whileStmt c body) g cur).2 := by
  obtain ⟨hIH, hoBody, hnbH, hedH, hstH, hoAfter⟩ := whileHeader_spec c body g cur hg hc
  have hnb := hg.nb
  have hcur := hc.lt
  cases hB : buildBlock body (whileHeader c body g cur) (g.nblocks + 1) with
  | mk g' eo =>
  have hpost0 := ih (whileHeader c body g cur) (g.nblocks + 1) hIH hoBody
  rw [hB] at hpost0
  have hpost : BuildPost (whileHeader c body g cur) g' (g.nblocks + 1) eo := hpost0
  have hpostc := hpost
  obtain ⟨hi', hm', hr', -, -⟩ := hpostc
  rw [buildStmt_while_red c body g cur g' eo hB]
  have hheader : BuildPost g (whileHeader c body g cur) cur (some (g.nblocks + 1)) := by
    refine ⟨hIH, by omega, ?_, ?_, ?_⟩
    · intro c0 hc0
      cases Option.some.inj hc0
      exact ⟨hoBody, Or.inr (by omega)⟩
    · refine ⟨_, hedH, ?_⟩
      intro e he
      simp only [List.mem_cons, List.not_mem_nil, or_false] at he
      rcases he with rfl | rfl | rfl
      · exact ⟨Or.inr (Nat.le_refl _), Or.inl rfl⟩
      · exact ⟨Or.inr (Nat.le_add_right _ 1), Or.inr (Nat.le_refl _)⟩
      · exact ⟨Or.inr (Nat.le_add_right _ 2), Or.inr (Nat.le_refl _)⟩
    · intro b hbc hbn
      exact hstH b (by omega)
  have hcomp : BuildPost g g' cur eo :=
    buildPost_comp g (whileHeader c body g cur) g' cur (g.nblocks + 1) eo hheader hpost
  obtain ⟨-, -, -, hEG, hSG⟩ := hcomp
  have hEor : ∀ x, eo = some x → x = g.nblocks + 1 ∨ g.nblocks + 3 ≤ x := by
    intro x hx
    obtain ⟨-, hor⟩ := hr' x hx
    rcases hor with rfl | hge
    · exact Or.inl rfl
    · right
      omega
  have hopen' : ∀ x, eo = some x → OpenOK g' x := fun x hx => (hr' x hx).1
  have hoAfter' : OpenOK g' (g.nblocks + 2) :=
    openOK_buildPost (whileHeader c body g cur) g' (g.nblocks + 1) eo hpost
      (g.nblocks + 2) (by omega) (by omega) hoAfter
  show BuildPost g (connectOpt eo g' g.nblocks) cur (some (g.nblocks + 2))
  refine ⟨?_, ?_, ?_, ?_, ?_⟩
  · exact inv_connectOpt eo g' g.nblocks hi' (by omega) (by omega) hopen'
  · rw [connectOpt_nblocks]
    omega
  · intro c0 hc0
    cases Option.some.inj hc0
    refine ⟨openOK_connectOpt eo g' g.nblocks (g.nblocks + 2) hoAfter' ?_,
      Or.inr (by omega)⟩
    intro y hy
    rcases hEor y hy with rfl | hge <;> omega
  · obtain ⟨new, hnew, hbound⟩ := hEG
    obtain ⟨opt, hopt, hoptmem⟩ := connectOpt_edges eo g' g.nblocks
    refine ⟨new ++ opt, ?_, ?_⟩
    · rw [hopt, hnew, List.append_assoc]
    · intro e he
      rcases List.mem_append.mp he with he | he
      · exact hbound e he
      · obtain ⟨hdst, x, hx, hsrc⟩ := hoptmem e he
        refine ⟨Or.inr (by omega), Or.inr ?_⟩
        rcases hEor x hx with h | h <;> omega
  · intro b hbc hbn
    rw [connectOpt_stmtsOf]
    exact hSG b hbc hbn

/-- `_build_if` with no else-branch satisfies the builder postcondition,
given that building the then-branch does. -/
theorem buildPost_ifNone (c : Expr) (tb : List Stmt) (g : CFG) (cur : Nat)
    (hg : BuilderInv g) (hc : OpenOK g cur)
    (ih : ∀ g₀ c₀, BuilderInv g₀ → OpenOK g₀ c₀ →
      BuildPost g₀ (buildBlock tb g₀ c₀).1 c₀ (buildBlock tb g₀ c₀).2) :
    BuildPost g (buildStmt (.ifStmt c tb none) g cur).1 cur
      (buildStmt (.ifStmt c tb none) g cur).2 := by
  obtain ⟨hIH, hoThen, hnbH, hedH, hstH, hoJoin, hretCur⟩ :=
    ifHeader_spec c tb none g cur hg hc
  have hnb := hg.nb
  have hcur := hc.lt
  cases hB : buildBlock tb (ifHeader c tb none g cur) g.nblocks with
  | mk gT eoT =>
  have hpost0 := ih (ifHeader c tb none g cur) g.nblocks hIH hoThen
  rw [hB] at hpost0
  have hpost : BuildPost (ifHeader c tb none g cur) gT g.nblocks eoT := hpost0
  have hpostc := hpost
  obtain ⟨hiT, hmT, hrT, -, hST⟩ := hpostc
  rw [buildStmt_ifNone_red c tb g cur gT eoT hB]
  have hheader : BuildPost g (ifHeader c tb none g cur) cur (some g.nblocks) := by
    refine ⟨hIH, by omega, ?_, ?_, ?_⟩
    · intro c0 hc0
      cases Option.some.inj hc0
      exact ⟨hoThen, Or.inr (Nat.le_refl _)⟩
    · refine ⟨_, hedH, ?_⟩
      intro e he
      simp only [List.mem_singleton] at he
      subst he
      exact ⟨Or.inr (Nat.le_refl _), Or.inl rfl⟩
    · intro b hbc hbn
      exact hstH b hbc
  have hcomp : BuildPost g gT cur eoT :=
    buildPost_comp g (ifHeader c tb none g cur) gT cur g.nblocks eoT hheader hpost
  obtain ⟨-, -, -, hEG, hSG⟩ := hcomp
  have hEorT : ∀ x, eoT = some x → x = g.nblocks ∨ g.nblocks + 2 ≤ x := by
    intro x hx
    obtain ⟨-, hor⟩ := hrT x hx
    rcases hor with rfl | hge
    · exact Or.inl rfl
    · right
      omega
  have hopenT : ∀ x, eoT = some x → OpenOK gT x := fun x hx => (hrT x hx).1
  have hoJoinT : OpenOK gT (g.nblocks + 1) :=
    openOK_buildPost (ifHeader c tb none g cur) gT g.nblocks eoT hpost
      (g.nblocks + 1) (by omega) (by omega) hoJoin
  have hretCurT : gT.isReturnBlock cur = false := by
    rw [CFG.isReturnBlock, hST cur (by omega) (by omega), ← CFG.isReturnBlock]
    exact hretCur
  set g5 := gT.connect cur (g.nblocks + 1) (some c) (some false) with hG5
  have hg5 : BuilderInv g5 :=
    inv_connect gT cur (g.nblocks + 1) (some c) (some false) hiT hc.ne1
      (by omega) (by omega) (by omega) hretCurT
  have hoJoin5 : OpenOK g5 (g.nblocks + 1) :=
    openOK_connect gT cur (g.nblocks + 1) (some c) (some false) (g.nblocks + 1)
      hoJoinT (by omega)
  have hopen5 : ∀ x, eoT = some x → OpenOK g5 x := by
    intro x hx
    refine openOK_connect gT cur (g.nblocks + 1) (some c) (some false) x
      (hopenT x hx) ?_
    rcases hEorT x hx with rfl | hge <;> omega
  have hg5n : g5.nblocks = gT.nblocks := rfl
  show BuildPost g (connectOpt eoT g5 (g.nblocks + 1)) cur (some (g.nblocks + 1))
  refine ⟨?_, ?_, ?_, ?_, ?_⟩
  · exact inv_connectOpt eoT g5 (g.nblocks + 1) hg5 (by omega) (by omega) hopen5
  · rw [connectOpt_nblocks]
    omega
  · intro c0 hc0
    cases Option.some.inj hc0
    refine ⟨openOK_connectOpt eoT g5 (g.nblocks + 1) (g.nblocks + 1) hoJoin5 ?_,
      Or.inr (by omega)⟩
    intro y hy
    rcases hEorT y hy with rfl | hge <;> omega
  · obtain ⟨newG, hnewG, hboundG⟩ := hEG
    obtain ⟨opt, hopt, hoptmem⟩ := connectOpt_edges eoT g5 (g.nblocks + 1)
    refine ⟨newG ++ [⟨cur, g.nblocks + 1, some c, some false⟩] ++ opt, ?_, ?_⟩
    · rw [hopt,
        show g5.edges
          = gT.edges ++ [⟨cur, g.nblocks + 1, some c, some false⟩] from rfl,
        hnewG]
      simp [List.append_assoc]
    · intro e he
      simp only [List.mem_append] at he
      rcases he with (he | he) | he
      · exact hboundG e he
      · simp only [List.mem_singleton] at he
        subst he
        exact ⟨Or.inr (Nat.le_add_right _ 1), Or.inl rfl⟩
      · obtain ⟨hdst, x, hx, hsrc⟩ := hoptmem e he
        refine ⟨Or.inr (by omega), Or.inr ?_⟩
        rcases hEorT x hx with h | h <;> omega
  · intro b hbc hbn
    rw [connectOpt_stmtsOf, show g5.stmtsOf b = gT.stmtsOf b from rfl]
    exact hSG b hbc hbn

/-- `_build_if` with an else-branch satisfies the builder postcondition,
given that building either branch does. -/
theorem buildPost_ifSome (c : Expr) (tb els : List Stmt) (g : CFG) (cur : Nat)
    (hg : BuilderInv g) (hc : OpenOK g cur)
    (ihT : ∀ g₀ c₀, BuilderInv g₀ → OpenOK g₀ c₀ →
      BuildPost g₀ (buildBlock tb g₀ c₀).1 c₀ (buildBlock tb g₀ c₀).2)
    (ihE : ∀ g₀ c₀, BuilderInv g₀ → OpenOK g₀ c₀ →
      BuildPost g₀ (buildBlock els g₀ c₀).1 c₀ (buildBlock els g₀ c₀).2) :
    BuildPost g (buildStmt (.ifStmt c tb (some els)) g cur).1 cur
      (buildStmt (.ifStmt c tb (some els)) g cur).2 := by
  obtain ⟨hIH, hoThen, hnbH, hedH, hstH, hoJoin, hretCur⟩ :=
    ifHeader_spec c tb (some els) g cur hg hc
  have hnb := hg.nb
  have hcur := hc.lt
  cases hT : buildBlock tb (ifHeader c tb (some els) g cur) g.nblocks with
  | mk gT eoT =>
  have hpostT0 := ihT (ifHeader c tb (some els) g cur) g.nblocks hIH hoThen
  rw [hT] at hpostT0
  have hpostT : BuildPost (ifHeader c tb (some els) g cur) gT g.nblocks eoT := hpostT0
  have hpostTc := hpostT
  obtain ⟨hiT, hmT, hrT, -, hST⟩ := hpostTc
  have hheader : BuildPost g (ifHeader c tb (some els) g cur) cur (some g.nblocks) := by
    refine ⟨hIH, by omega, ?_, ?_, ?_⟩
    · intro c0 hc0
      cases Option.some.inj hc0
      exact ⟨hoThen, Or.inr (Nat.le_refl _)⟩
    · refine ⟨_, hedH, ?_⟩
      intro e he
      simp only [List.mem_singleton] at he
      subst he
      exact ⟨Or.inr (Nat.le_refl _), Or.inl rfl⟩
    · intro b hbc hbn
      exact hstH b hbc
  have hcompT : BuildPost g gT cur eoT :=
    buildPost_comp g (ifHeader c tb (some els) g cur) gT cur g.nblocks eoT hheader hpostT
  obtain ⟨-, -, -, hEG, hSG⟩ := hcompT
  have hEorT : ∀ x, eoT = some x → x = g.nblocks ∨ g.nblocks + 2 ≤ x := by
    intro x hx
    obtain ⟨-, hor⟩ := hrT x hx
    rcases hor with rfl | hge
    · exact Or.inl rfl
    · right
      omega
  have hopenT : ∀ x, eoT = some x → OpenOK gT x := fun x hx => (hrT x hx).1
  have hoJoinT : OpenOK gT (g.nblocks + 1) :=
    openOK_buildPost (ifHeader c tb (some els) g cur) gT g.nblocks eoT hpostT
      (g.nblocks + 1) (by omega) (by omega) hoJoin
  have hretCurT : gT.isReturnBlock cur = false := by
    rw [CFG.isReturnBlock, hST cur (by omega) (by omega), ← CFG.isReturnBlock]
    exact hretCur
  -- fresh else block and its entering edge
  obtain ⟨hg5, hoElse5⟩ := inv_newBlock gT hiT
  set g5 := (gT.newBlock).1 with hG5
  have hg5n : g5.nblocks = gT.nblocks + 1 := rfl
  have hoJoin5 : OpenOK g5 (g.nblocks + 1) :=
    openOK_newBlock gT hiT (g.nblocks + 1) hoJoinT
  have hretCur5 : g5.isReturnBlock cur = false := by
    rw [hG5, isReturnBlock_newBlock_ne gT hiT.stlen cur (by omega)]
    exact hretCurT
  have hopenT5 : ∀ x, eoT = some x → OpenOK g5 x := fun x hx =>
    openOK_newBlock gT hiT x (hopenT x hx)
  set g6 := g5.connect cur gT.nblocks (some c) (some false) with hG6
  have hg6n : g6.nblocks = gT.nblocks + 1 := rfl
  have hg6 : BuilderInv g6 :=
    inv_connect g5 cur gT.nblocks (some c) (some false) hg5 hc.ne1
      (by omega) (by omega) (by omega) hretCur5
  have hoElse6 : OpenOK g6 gT.nblocks :=
    openOK_connect g5 cur gT.nblocks (some c) (some false) gT.nblocks hoElse5
      (by omega)
  have hoJoin6 : OpenOK g6 (g.nblocks + 1) :=
    openOK_connect g5 cur gT.nblocks (some c) (some false) (g.nblocks + 1) hoJoin5
      (by omega)
  have hopenT6 : ∀ x, eoT = some x → OpenOK g6 x := by
    intro x hx
    refine openOK_connect g5 cur gT.nblocks (some c) (some false) x (hopenT5 x hx) ?_
    rcases hEorT x hx with rfl | hge <;> omega
  cases hE : buildBlock els g6 gT.nblocks with
  | mk gE eoE =>
  have hpostE0 := ihE g6 gT.nblocks hg6 hoElse6
  rw [hE] at hpostE0
  have hpostE : BuildPost g6 gE gT.nblocks eoE := hpostE0
  have hpostEc := hpostE
  obtain ⟨hiE, hmE, hrE, hEE, hSE⟩ := hpostEc
  rw [buildStmt_ifSome_red c tb els g cur gT eoT gE eoE hT hE]
  have hEorE : ∀ x, eoE = some x → x = gT.nblocks ∨ gT.nblocks + 1 ≤ x := by
    intro x hx
    obtain ⟨-, hor⟩ := hrE x hx
    rcases hor with rfl | hge
    · exact Or.inl rfl
    · right
      omega
  have hopenE : ∀ x, eoE = some x → OpenOK gE x := fun x hx => (hrE x hx).1
  have hoJoinE : OpenOK gE (g.nblocks + 1) :=
    openOK_buildPost g6 gE gT.nblocks eoE hpostE (g.nblocks + 1) (by omega)
      (by omega) hoJoin6
  have hopenTE : ∀ x, eoT = some x → OpenOK gE x := by
    intro x hx
    have hxlt := (hopenT x hx).lt
    exact openOK_buildPost g6 gE gT.nblocks eoE hpostE x (by omega) (by omega)
      (hopenT6 x hx)
  have hg7 : BuilderInv (connectOpt eoT gE (g.nblocks + 1)) :=
    inv_connectOpt eoT gE (g.nblocks + 1) hiE (by omega) (by omega) hopenTE
  have hoJoin7 : OpenOK (connectOpt eoT gE (g.nblocks + 1)) (g.nblocks + 1) := by
    refine openOK_connectOpt eoT gE (g.nblocks + 1) (g.nblocks + 1) hoJoinE ?_
    intro y hy
    rcases hEorT y hy with rfl | hge <;> omega
  have hopenE7 : ∀ x, eoE = some x →
      OpenOK (connectOpt eoT gE (g.nblocks + 1)) x := by
    intro x hx
    refine openOK_connectOpt eoT gE (g.nblocks + 1) x (hopenE x hx) ?_
    intro y hy
    have hylt := (hopenT y hy).lt
    rcases hEorE x hx with rfl | hge <;> omega
  show BuildPost g
    (connectOpt eoE (connectOpt eoT gE (g.nblocks + 1)) (g.nblocks + 1)) cur
    (some (g.nblocks + 1))
  refine ⟨?_, ?_, ?_, ?_, ?_⟩
  · refine inv_connectOpt eoE (connectOpt eoT gE (g.nblocks + 1)) (g.nblocks + 1)
      hg7 (by omega) ?_ hopenE7
    rw [connectOpt_nblocks]
    omega
  · rw [connectOpt_nblocks, connectOpt_nblocks]
    omega
  · intro c0 hc0
    cases Option.some.inj hc0
    refine ⟨openOK_connectOpt eoE (connectOpt eoT gE (g.nblocks + 1))
      (g.nblocks + 1) (g.nblocks + 1) hoJoin7 ?_, Or.inr (by omega)⟩
    intro y hy
    rcases hEorE y hy with rfl | hge <;> omega
  · obtain ⟨newG, hnewG, hboundG⟩ := hEG
    obtain ⟨newE, hnewE, hboundE⟩ := hEE
    obtain ⟨opt1, hopt1, hmem1⟩ := connectOpt_edges eoT gE (g.nblocks + 1)
    obtain ⟨opt2, hopt2, hmem2⟩ :=
      connectOpt_edges eoE (connectOpt eoT gE (g.nblocks + 1)) (g.nblocks + 1)
    refine ⟨newG ++ [⟨cur, gT.nblocks, some c, some false⟩] ++ newE ++ opt1 ++ opt2,
      ?_, ?_⟩
    · rw [hopt2, hopt1, hnewE,
        show g6.edges
          = gT.edges ++ [⟨cur, gT.nblocks, some c, some false⟩] from rfl,
        hnewG]
      simp [List.append_assoc]
    · intro e he
      simp only [List.mem_append] at he
      rcases he with (((he | he) | he) | he) | he
      · exact hboundG e he
      · simp only [List.mem_singleton] at he
        subst he
        exact ⟨Or.inr (show g.nblocks ≤ gT.nblocks by omega), Or.inl rfl⟩
      · obtain ⟨hd, hs⟩ := hboundE e he
        constructor
        · rcases hd with hd | hd
          · exact Or.inl hd
          · right
            omega
        · rcases hs with hs | hs
          · right
            omega
          · right
            omega
      · obtain ⟨hd, x, hx, hs⟩ := hmem1 e he
        refine ⟨Or.inr (by omega), Or.inr ?_⟩
        rcases hEorT x hx with h | h <;> omega
      · obtain ⟨hd, x, hx, hs⟩ := hmem2 e he
        refine ⟨Or.inr (by omega), Or.inr ?_⟩
        rcases hEorE x hx with h | h
        · omega
        · omega
  · intro b hbc hbn
    have hb1 : b ≠ gT.nblocks := by omega
    have hb2 : b < g6.nblocks := by omega
    rw [connectOpt_stmtsOf, connectOpt_stmtsOf, hSE b hb1 hb2,
      show g6.stmtsOf b = g5.stmtsOf b from rfl, hG5,
      stmtsOf_newBlock_ne gT hiT.stlen b hb1]
    exact hSG b hbc hbn

mutual

/-- Every `_build_stmt` call on an invariant-respecting graph with an open
current block satisfies the builder postcondition. -/
theorem buildStmt_post (s : Stmt) (g : CFG) (cur : Nat) (hg : BuilderInv g)
    (hc : OpenOK g cur) :
    BuildPost g (buildStmt s g cur).1 cur (buildStmt s g cur).2 :=
  match s with
  | .varDecl t n v => buildPost_append g cur (.varDecl t n v) hg hc rfl
  | .assign n v => buildPost_append g cur (.assign n v) hg hc rfl
  | .printStmt v => buildPost_append g cur (.printStmt v) hg hc rfl
  | .returnStmt v => buildPost_return g cur v hg hc
  | .ifStmt c tb none =>
      buildPost_ifNone c tb g cur hg hc
        (fun g₀ c₀ hg₀ hc₀ => buildBlock_post tb g₀ c₀ hg₀ hc₀)
  | .ifStmt c tb (some els) =>
      buildPost_ifSome c tb els g cur hg hc
        (fun g₀ c₀ hg₀ hc₀ => buildBlock_post tb g₀ c₀ hg₀ hc₀)
        (fun g₀ c₀ hg₀ hc₀ => buildBlock_post els g₀ c₀ hg₀ hc₀)
  | .whileStmt c body =>
      buildPost_while c body g cur hg hc
        (fun g₀ c₀ hg₀ hc₀ => buildBlock_post body g₀ c₀ hg₀ hc₀)
  | .blockStmt stmts => buildBlock_post stmts g cur hg hc

/-- Every `_build_block` call on an invariant-respecting graph with an open
current block satisfies the builder postcondition. -/
theorem buildBlock_post (stmts : List Stmt) (g : CFG) (cur : Nat)
    (hg : BuilderInv g) (hc : OpenOK g cur) :
    BuildPost g (buildBlock stmts g cur).1 cur (buildBlock stmts g cur).2 :=
  match stmts with
  | [] => buildPost_refl g cur hg hc
  | s :: rest => by
      have hs := buildStmt_post s g cur hg hc
      cases hsb : buildStmt s g cur with
      | mk g₁ r =>
      rw [hsb] at hs
      have hs' : BuildPost g g₁ cur r := hs
      cases r with
      | none =>
          have hred : buildBlock (s :: rest) g cur = (g₁, none) := by
            simp only [buildBlock, hsb]
          rw [hred]
          exact hs'
      | some c₁ =>
          have hred : buildBlock (s :: rest) g cur = buildBlock rest g₁ c₁ := by
            simp only [buildBlock, hsb]
          obtain ⟨ho₁, -⟩ := hs'.2.2.1 c₁ rfl
          have hrest := buildBlock_post rest g₁ c₁ hs'.1 ho₁
          rw [hred]
          exact buildPost_comp g g₁ (buildBlock rest g₁ c₁).1 cur c₁
            (buildBlock rest g₁ c₁).2 hs' hrest

end

/-- The two-block graph `build` starts from satisfies the builder
invariants. -/
theorem emptyCFG_inv : BuilderInv emptyCFG := by
  refine ⟨rfl, rfl, Nat.le_refl 2, rfl, ?_, ?_, rfl, ?_⟩
  · intro e he
    exact absurd he (List.not_mem_nil e)
  · intro e he
    exact absurd he (List.not_mem_nil e)
  · intro b hb
    have hst : emptyCFG.stmtsOf b = [] := by
      match b with
      | 0 => rfl
      | 1 => rfl
      | n + 2 => rfl
    rw [CFG.isReturnBlock, hst] at hb
    exact Bool.noConfusion hb

/-- The entry block of the start graph is open. -/
theorem emptyCFG_open0 : OpenOK emptyCFG 0 :=
  ⟨by decide, by decide, rfl, rfl⟩

/-- `CFGBuilder.build` produces a graph satisfying all builder invariants. -/
theorem build_inv (body : List Stmt) : BuilderInv (build body) := by
  have hpost0 := buildBlock_post body emptyCFG 0 emptyCFG_inv emptyCFG_open0
  cases hB : buildBlock body emptyCFG 0 with
  | mk g' eo =>
  rw [hB] at hpost0
  have hpost : BuildPost emptyCFG g' 0 eo := hpost0
  obtain ⟨hi, hm, hr, -, -⟩ := hpost
  cases eo with
  | none =>
      have h0 : build body = g' := by simp only [build, hB]
      rw [h0]
      exact hi
  | some e =>
      have h0 : build body = g'.connect e 1 := by simp only [build, hB]
      rw [h0]
      obtain ⟨hx, -⟩ := hr e rfl
      exact inv_connect g' e 1 none none hi hx.ne1 hx.lt (by decide)
        (by have := hi.nb; omega) hx.notRet

/-- C7: the CFG returned by `build` satisfies the structural invariants: the
entry block has no predecessors, the exit block has no successors, and every
block whose last statement is a `return` has exactly the one successor
`exit`. -/
theorem c7_cfg_structural_invariants (body : List Stmt) :
    (build body).predecessors (build body).entry = [] ∧
    (build body).successors (build body).exit = [] ∧
    (∀ b, (build body).isReturnBlock b = true →
      (build body).successors b = [(build body).exit]) := by
  have hi := build_inv body
  refine ⟨?_, ?_, ?_⟩
  · have hentry : (build body).inEdges 0 = [] := by
      rw [CFG.inEdges, List.filter_eq_nil.mpr ?_]
      intro e he
      have h0 := (hi.edst e he).1
      simp only [decide_eq_true_eq]
      exact h0
    rw [CFG.predecessors, hi.entry0, hentry]
    rfl
  · have hexit : (build body).outEdges 1 = [] := by
      rw [CFG.outEdges, List.filter_eq_nil.mpr ?_]
      intro e he
      have h1 := (hi.esrc e he).1
      simp only [decide_eq_true_eq]
      exact h1
    rw [CFG.successors, hi.exit1, hexit]
    rfl
  · intro b hb
    rw [CFG.successors, hi.retOut b hb, hi.exit1]
    rfl

/-- C7, witnessed on `int main() { return 0; }`: in the built CFG the entry
block has no predecessors, the exit block has no successors, and the entry
block (whose last statement is the `return`) has exactly the successor
`exit`. -/
theorem c7_witness :
    (build [Stmt.returnStmt (.literal (.int 0))]).predecessors
        (build [Stmt.returnStmt (.literal (.int 0))]).entry = [] ∧
    (build [Stmt.returnStmt (.literal (.int 0))]).successors
        (build [Stmt.returnStmt (.literal (.int 0))]).exit = [] ∧
    (build [Stmt.returnStmt (.literal (.int 0))]).isReturnBlock 0 = true ∧
    (build [Stmt.returnStmt (.literal (.int 0))]).successors 0
      = [(build [Stmt.returnStmt (.literal (.int 0))]).exit] := by
  have h := c7_cfg_structural_invariants [Stmt.returnStmt (.literal (.int 0))]
  exact ⟨h.1, h.2.1, rfl, h.2.2 0 rfl⟩

/-! ## C3: the `while` back-edge -/

/-- C3 (amended): the in-edges of the `cond_block` a `while` creates are
exactly the entering edge from the current block plus — if and only if
building the loop body left its tail open — the back-edge from that tail.
In particular, when the loop body terminates on every path (for example,
ends in `return`), no back-edge is created and the `cond_block` lies on no
cycle. -/
theorem c3_while_backedge_characterized (c : Expr) (body : List Stmt) (g : CFG)
    (cur : Nat) (hg : BuilderInv g) (hc : OpenOK g cur) :
    (buildStmt (.whileStmt c body) g cur).1.inEdges g.nblocks
      = ⟨cur, g.nblocks, none, none⟩ ::
          ((buildBlock body (whileHeader c body g cur) (g.nblocks + 1)).2.map
            fun e => CFGEdge.mk e g.nblocks none none).toList := by
  obtain ⟨hIH, hoBody, hnbH, hedH, -, -⟩ := whileHeader_spec c body g cur hg hc
  have hnb := hg.nb
  cases hB : buildBlock body (whileHeader c body g cur) (g.nblocks + 1) with
  | mk g' eo =>
  have hpost0 := buildBlock_post body (whileHeader c body g cur) (g.nblocks + 1)
    hIH hoBody
  rw [hB] at hpost0
  have hpost : BuildPost (whileHeader c body g cur) g' (g.nblocks + 1) eo := hpost0
  obtain ⟨-, -, -, ⟨new, hnew, hbound⟩, -⟩ := hpost
  rw [buildStmt_while_red c body g cur g' eo hB]
  show (connectOpt eo g' g.nblocks).inEdges g.nblocks
      = ⟨cur, g.nblocks, none, none⟩ ::
        (eo.map fun e => CFGEdge.mk e g.nblocks none none).toList
  rw [inEdges_connectOpt_self]
  have h1 : g.edges.filter (·.dst = g.nblocks) = [] := by
    have h := inEdges_eq_nil_big g hg g.nblocks (Nat.le_refl _)
    rw [CFG.inEdges] at h
    exact h
  have h2 : [CFGEdge.mk cur g.nblocks none none,
             CFGEdge.mk g.nblocks (g.nblocks + 1) (some c) (some true),
             CFGEdge.mk g.nblocks (g.nblocks + 2) (some c) (some false)].filter
      (·.dst = g.nblocks) = [CFGEdge.mk cur g.nblocks none none] := by
    simp only [List.filter_cons, List.filter_nil]
    rw [if_pos (by simp), if_neg (by simp), if_neg (by simp)]
  have h3 : new.filter (·.dst = g.nblocks) = [] := by
    refine List.filter_eq_nil.mpr ?_
    intro e he
    obtain ⟨hd, -⟩ := hbound e he
    simp only [decide_eq_true_eq]
    rcases hd with hd | hd <;> omega
  have hgIn : g'.inEdges g.nblocks = [⟨cur, g.nblocks, none, none⟩] := by
    rw [CFG.inEdges, hnew, hedH, List.filter_append, List.filter_append, h1, h2, h3]
    rfl
  rw [hgIn]
  rfl

/-- C3, witnessed on `while (b) { return 0; }` started from the initial
two-block graph: the loop body terminates, so the `cond_block` (id 2) has
the single in-edge from the current block and no back-edge. -/
theorem c3_witness :
    (buildStmt (.whileStmt (.varExpr "b") [.returnStmt (.literal (.int 0))])
        emptyCFG 0).1.inEdges 2
      = [⟨0, 2, none, none⟩] := by
  have h := c3_while_backedge_characterized (.varExpr "b")
    [.returnStmt (.literal (.int 0))] emptyCFG 0 emptyCFG_inv emptyCFG_open0
  exact h

/-- C3, counterexample: in `int f(int x) { while (x) { return 1; } }` the
`while` marker sits in block 2 (its `cond_block`), yet the built CFG has no
cycle through block 2 — no edge leaves 2 and comes back — because the loop
body ends in `return` and the builder adds no back-edge. -/
theorem c3_while_cycle_counterexample :
    (build exWhileReturn).stmtsOf 2
      = [.whileStmt (.varExpr "x") [.returnStmt (.literal (.int 1))]] ∧
    ¬ ∃ d, (build exWhileReturn).hasEdge 2 d ∧
        Relation.ReflTransGen (build exWhileReturn).hasEdge d 2 := by
  have hE : (build exWhileReturn).edges
      = [⟨0, 2, none, none⟩,
         ⟨2, 3, some (.varExpr "x"), some true⟩,
         ⟨2, 4, some (.varExpr "x"), some false⟩,
         ⟨3, 1, none, none⟩,
         ⟨4, 1, none, none⟩] := rfl
  constructor
  · rfl
  · rintro ⟨d, hd, hR⟩
    have haux : ∀ x, Relation.ReflTransGen (build exWhileReturn).hasEdge x 2 →
        x = 2 ∨ x = 0 := by
      intro x hx
      refine Relation.ReflTransGen.head_induction_on hx ?_ ?_
      · exact Or.inl rfl
      · intro a b h' hrest ih
        obtain ⟨e, he, hsrc, hdst⟩ := h'
        rw [hE] at he
        simp only [List.mem_cons, List.not_mem_nil, or_false] at he
        rcases ih with rfl | rfl
        · rcases he with rfl | rfl | rfl | rfl | rfl
          · exact Or.inr hsrc.symm
          · exact absurd hdst (by decide)
          · exact absurd hdst (by decide)
          · exact absurd hdst (by decide)
          · exact absurd hdst (by decide)
        · rcases he with rfl | rfl | rfl | rfl | rfl <;>
            exact absurd hdst (by decide)
    obtain ⟨e, he, hsrc, hdst⟩ := hd
    rw [hE] at he
    simp only [List.mem_cons, List.not_mem_nil, or_false] at he
    rcases haux d hR with rfl | rfl
    · rcases he with rfl | rfl | rfl | rfl | rfl
      · exact absurd hsrc (by decide)
      · exact absurd hdst (by decide)
      · exact absurd hdst (by decide)
      · exact absurd hsrc (by decide)
      · exact absurd hsrc (by decide)
    · rcases he with rfl | rfl | rfl | rfl | rfl
      · exact absurd hsrc (by decide)
      · exact absurd hdst (by decide)
      · exact absurd hdst (by decide)
      · exact absurd hsrc (by decide)
      · exact absurd hsrc (by decide)

/-! ## C6: correctness of the return-analysis DFS -/

/-- `b ∈ a.successors` coincides with the existence of an edge `a → b`. -/
theorem mem_successors_iff (g : CFG) (a s : Nat) :
    s ∈ g.successors a ↔ g.hasEdge a s := by
  simp only [CFG.successors, CFG.outEdges, List.mem_map, List.mem_filter,
    decide_eq_true_eq, CFG.hasEdge]
  constructor
  · rintro ⟨e, ⟨he, hsrc⟩, hdst⟩
    exact ⟨e, he, hsrc, hdst⟩
  · rintro ⟨e, he, hsrc, hdst⟩
    exact ⟨e, ⟨he, hsrc⟩, hdst⟩

/-- The Python loop over successors returns immediately once the answer is
`True`: the fold fixes a `true` accumulator. -/
theorem dfsFold_true (g : CFG) (cut : Nat → Bool) (t fuel : Nat)
    (l : List Nat) (v : Finset Nat) :
    l.foldl (fun acc s => match acc with
      | (true, u) => (true, u)
      | (false, u) => dfsReach g cut t fuel s u) (true, v) = (true, v) := by
  induction l with
  | nil => rfl
  | cons s rest ih =>
      rw [List.foldl_cons]
      exact ih

/-- If the successor fold answers `true`, some successor's recursive DFS
call answered `true`. -/
theorem dfsFold_true_exists (g : CFG) (cut : Nat → Bool) (t fuel : Nat) :
    ∀ (l : List Nat) (v : Finset Nat),
      (l.foldl (fun acc s => match acc with
        | (true, u) => (true, u)
        | (false, u) => dfsReach g cut t fuel s u) (false, v)).1 = true →
      ∃ s ∈ l, ∃ w, (dfsReach g cut t fuel s w).1 = true := by
  intro l
  induction l with
  | nil =>
      intro v h
      exact Bool.noConfusion h
  | cons s rest ih =>
      intro v h
      rw [List.foldl_cons] at h
      cases hds : dfsReach g cut t fuel s v with
      | mk bs ws =>
      have h' : (List.foldl (fun acc s2 => match acc with
            | (true, u) => (true, u)
            | (false, u) => dfsReach g cut t fuel s2 u) (bs, ws) rest).1
          = true := by
        rw [← hds]
        exact h
      cases bs with
      | true => exact ⟨s, List.mem_cons_self s rest, v, by rw [hds]⟩
      | false =>
          obtain ⟨s2, hs2, w, hw⟩ := ih ws h'
          exact ⟨s2, List.mem_cons_of_mem s hs2, w, hw⟩

/-- Soundness of `_dfs_can_reach_exit`: a `true` answer exhibits a chain of
edges from the start to the target that never leaves a cut block. -/
theorem dfsReach_sound (g : CFG) (cut : Nat → Bool) (t : Nat) :
    ∀ fuel cur v, (dfsReach g cut t fuel cur v).1 = true →
      Relation.ReflTransGen (fun a b => g.hasEdge a b ∧ cut a = false) cur t := by
  intro fuel
  induction fuel with
  | zero =>
      intro cur v h
      exact Bool.noConfusion h
  | succ fuel ih =>
      intro cur v h
      have hEq : dfsReach g cut t (fuel + 1) cur v
          = (if cur = t then (true, v)
             else if cur ∈ v then (false, v)
             else if cut cur then (false, insert cur v)
             else (g.successors cur).foldl
               (fun acc s => match acc with
                 | (true, u) => (true, u)
                 | (false, u) => dfsReach g cut t fuel s u)
               (false, insert cur v)) := rfl
      rw [hEq] at h
      by_cases h1 : cur = t
      · subst h1
        exact Relation.ReflTransGen.refl
      rw [if_neg h1] at h
      by_cases h2 : cur ∈ v
      · rw [if_pos h2] at h
        exact Bool.noConfusion h
      rw [if_neg h2] at h
      by_cases h3 : cut cur = true
      · rw [if_pos h3] at h
        exact Bool.noConfusion h
      rw [if_neg h3] at h
      have h3' : cut cur = false := by
        cases hcc : cut cur
        · rfl
        · exact absurd hcc h3
      obtain ⟨s, hsl, w, hw⟩ := dfsFold_true_exists g cut t fuel (g.successors cur)
        (insert cur v) h
      exact Relation.ReflTransGen.head
        ⟨(mem_successors_iff g cur s).mp hsl, h3'⟩ (ih s w hw)

/-- Completeness of `_dfs_can_reach_exit` with sufficient fuel: a `false`
answer leaves behind a visited set containing the start that excludes the
target and is closed under the successors of its non-cut members — so no
avoiding chain from the start can reach the target.  The fuel bookkeeping
`N + 1 ≤ fuel + |v|` holds at the top call with fuel `N + 1`, and each level
of the Python recursion first inserts an unvisited block into `visited`. -/
theorem dfsReach_false_spec (g : CFG) (cut : Nat → Bool) (t N : Nat)
    (hwf : ∀ e ∈ g.edges, e.dst < N) :
    ∀ fuel cur v, cur < N → (∀ b ∈ v, b < N) → N + 1 ≤ fuel + v.card →
      (dfsReach g cut t fuel cur v).1 = false →
      cur ∈ (dfsReach g cut t fuel cur v).2 ∧
      v ⊆ (dfsReach g cut t fuel cur v).2 ∧
      (∀ b ∈ (dfsReach g cut t fuel cur v).2, b < N) ∧
      (∀ b ∈ (dfsReach g cut t fuel cur v).2, b ∉ v →
        b ≠ t ∧ (cut b = false → ∀ s, g.hasEdge b s →
          s ∈ (dfsReach g cut t fuel cur v).2)) := by
  intro fuel
  induction fuel with
  | zero =>
      intro cur v hcur hv hfuel hres
      exfalso
      have hsub : v ⊆ Finset.range N := fun b hb => Finset.mem_range.mpr (hv b hb)
      have hcard := Finset.card_le_card hsub
      rw [Finset.card_range] at hcard
      omega
  | succ fuel ih =>
      intro cur v hcur hv hfuel hres
      have hEq : dfsReach g cut t (fuel + 1) cur v
          = (if cur = t then (true, v)
             else if cur ∈ v then (false, v)
             else if cut cur then (false, insert cur v)
             else (g.successors cur).foldl
               (fun acc s => match acc with
                 | (true, u) => (true, u)
                 | (false, u) => dfsReach g cut t fuel s u)
               (false, insert cur v)) := rfl
      rw [hEq] at hres ⊢
      by_cases h1 : cur = t
      · rw [if_pos h1] at hres
        exact Bool.noConfusion hres
      rw [if_neg h1] at hres ⊢
      by_cases h2 : cur ∈ v
      · rw [if_pos h2] at hres ⊢
        refine ⟨h2, Finset.Subset.refl v, hv, ?_⟩
        intro b hb hbv
        exact absurd hb hbv
      rw [if_neg h2] at hres ⊢
      by_cases h3 : cut cur = true
      · rw [if_pos h3] at hres ⊢
        refine ⟨Finset.mem_insert_self cur v, Finset.subset_insert cur v, ?_, ?_⟩
        · intro b hb
          rcases Finset.mem_insert.mp hb with rfl | hb
          · exact hcur
          · exact hv b hb
        · intro b hb hbv
          rcases Finset.mem_insert.mp hb with rfl | hb
          · exact ⟨h1, fun hcb => absurd h3 (by simp [hcb])⟩
          · exact absurd hb hbv
      rw [if_neg h3] at hres ⊢
      have hsuccN : ∀ s ∈ g.successors cur, s < N := by
        intro s hs
        obtain ⟨e, he, -, hdst⟩ := (mem_successors_iff g cur s).mp hs
        exact hdst ▸ hwf e he
      have hbnd : ∀ b ∈ insert cur v, b < N := by
        intro b hb
        rcases Finset.mem_insert.mp hb with rfl | hb
        · exact hcur
        · exact hv b hb
      have hcl : ∀ b ∈ insert cur v, b ∉ v → b ≠ cur →
          b ≠ t ∧ (cut b = false → ∀ s, g.hasEdge b s → s ∈ insert cur v) := by
        intro b hb hbv hbc
        rcases Finset.mem_insert.mp hb with rfl | hb
        · exact absurd rfl hbc
        · exact absurd hb hbv
      have key : ∀ (l : List Nat), (∀ s ∈ l, s < N) → ∀ (w : Finset Nat),
          insert cur v ⊆ w → (∀ b ∈ w, b < N) →
          (∀ b ∈ w, b ∉ v → b ≠ cur →
            b ≠ t ∧ (cut b = false → ∀ s2, g.hasEdge b s2 → s2 ∈ w)) →
          ∀ p, l.foldl (fun acc s => match acc with
              | (true, u) => (true, u)
              | (false, u) => dfsReach g cut t fuel s u) (false, w) = p →
            p.1 = false →
            w ⊆ p.2 ∧ (∀ b ∈ p.2, b < N) ∧
            (∀ b ∈ p.2, b ∉ v → b ≠ cur →
              b ≠ t ∧ (cut b = false → ∀ s2, g.hasEdge b s2 → s2 ∈ p.2)) ∧
            (∀ s ∈ l, s ∈ p.2) := by
        intro l
        induction l with
        | nil =>
            intro _hl w hw1 hw2 hw3 p hp hpf
            rw [List.foldl_nil] at hp
            subst hp
            exact ⟨Finset.Subset.refl w, hw2, hw3,
              fun s hs => absurd hs (List.not_mem_nil s)⟩
        | cons s rest ihl =>
            intro hlN w hw1 hw2 hw3 p hp hpf
            rw [List.foldl_cons] at hp
            cases hds : dfsReach g cut t fuel s w with
            | mk bs ws =>
            have hp' : List.foldl (fun acc s2 => match acc with
                  | (true, u) => (true, u)
                  | (false, u) => dfsReach g cut t fuel s2 u) (bs, ws) rest
                = p := by
              rw [← hds]
              exact hp
            cases bs with
            | true =>
                exfalso
                rw [dfsFold_true g cut t fuel rest ws] at hp'
                subst hp'
                exact Bool.noConfusion hpf
            | false =>
                have hresS : (dfsReach g cut t fuel s w).1 = false := by rw [hds]
                have hcard : N + 1 ≤ fuel + w.card := by
                  have hc1 : (insert cur v).card ≤ w.card := Finset.card_le_card hw1
                  have hc2 : (insert cur v).card = v.card + 1 :=
                    Finset.card_insert_of_not_mem h2
                  omega
                have hIH := ih s w (hlN s (List.mem_cons_self s rest)) hw2 hcard hresS
                rw [hds] at hIH
                obtain ⟨hsIn, hsSub, hsBound, hsClosed⟩ := hIH
                have hw1' : insert cur v ⊆ ws := Finset.Subset.trans hw1 hsSub
                have hw3' : ∀ b ∈ ws, b ∉ v → b ≠ cur →
                    b ≠ t ∧ (cut b = false → ∀ s2, g.hasEdge b s2 → s2 ∈ ws) := by
                  intro b hb hbv hbc
                  by_cases hbw : b ∈ w
                  · obtain ⟨hbt, hclose⟩ := hw3 b hbw hbv hbc
                    exact ⟨hbt, fun hcb s2 hs2 => hsSub (hclose hcb s2 hs2)⟩
                  · exact hsClosed b hb hbw
                obtain ⟨hwsSub, hBound, hClosed, hRest⟩ :=
                  ihl (fun s2 hs2 => hlN s2 (List.mem_cons_of_mem s hs2)) ws hw1'
                    hsBound hw3' p hp' hpf
                refine ⟨Finset.Subset.trans hsSub hwsSub, hBound, hClosed, ?_⟩
                intro x hx
                rcases List.mem_cons.mp hx with rfl | hx
                · exact hwsSub hsIn
                · exact hRest x hx
      obtain ⟨hSub, hBound, hClosed', hAll⟩ := key (g.successors cur) hsuccN
        (insert cur v) (Finset.Subset.refl _) hbnd hcl _ rfl hres
      refine ⟨hSub (Finset.mem_insert_self cur v),
        Finset.Subset.trans (Finset.subset_insert cur v) hSub, hBound, ?_⟩
      intro b hb hbv
      by_cases hbc : b = cur
      · subst hbc
        exact ⟨h1, fun _ s hs => hAll s ((mem_successors_iff g b s).mpr hs)⟩
      · exact hClosed' b hb hbv hbc

/-- `function_always_returns` answers `False` exactly when the CFG has a
chain of edges from `entry` to `exit` that never steps out of a block whose
last statement is a `return`. -/
theorem functionAlwaysReturns_iff (g : CFG) (hg : BuilderInv g) :
    g.functionAlwaysReturns = false ↔
      Relation.ReflTransGen g.stepAvoidingReturn g.entry g.exit := by
  constructor
  · intro hfalse
    have htrue : (dfsReach g g.isReturnBlock g.exit (g.nblocks + 1) g.entry ∅).1
        = true := by
      rw [CFG.functionAlwaysReturns] at hfalse
      cases hres : (dfsReach g g.isReturnBlock g.exit (g.nblocks + 1) g.entry ∅).1
      · rw [hres] at hfalse
        exact absurd hfalse (by decide)
      · rfl
    exact dfsReach_sound g g.isReturnBlock g.exit (g.nblocks + 1) g.entry ∅ htrue
  · intro hpath
    by_contra hne
    have htrue : g.functionAlwaysReturns = true := by
      cases hres : g.functionAlwaysReturns
      · exact absurd hres hne
      · rfl
    have hfalse : (dfsReach g g.isReturnBlock g.exit (g.nblocks + 1) g.entry ∅).1
        = false := by
      rw [CFG.functionAlwaysReturns] at htrue
      cases hres : (dfsReach g g.isReturnBlock g.exit (g.nblocks + 1) g.entry ∅).1
      · rfl
      · rw [hres] at htrue
        exact absurd htrue (by decide)
    have hspec := dfsReach_false_spec g g.isReturnBlock g.exit g.nblocks
      (fun e he => (hg.edst e he).2) (g.nblocks + 1) g.entry ∅
      (by rw [hg.entry0]; have := hg.nb; omega)
      (fun b hb => absurd hb (Finset.not_mem_empty b))
      (by simp)
      hfalse
    obtain ⟨hIn, -, -, hClosed⟩ := hspec
    have hstep : ∀ x, Relation.ReflTransGen g.stepAvoidingReturn x g.exit →
        x ∈ (dfsReach g g.isReturnBlock g.exit (g.nblocks + 1) g.entry ∅).2 →
        False := by
      intro x hx
      refine Relation.ReflTransGen.head_induction_on hx ?_ ?_
      · intro hmem
        obtain ⟨ht, -⟩ := hClosed g.exit hmem (Finset.not_mem_empty _)
        exact ht rfl
      · intro a b h' hrest ihx hamem
        obtain ⟨-, hcl⟩ := hClosed a hamem (Finset.not_mem_empty _)
        obtain ⟨hedge, hcut⟩ := h'
        exact ihx (hcl hcut b hedge)
    exact hstep g.entry hpath hIn

/-- C6: for every function body, the always-returns analysis reports no
diagnostic exactly when no chain of CFG edges from `entry` reaches `exit`
without stepping out of a `return` block (every path crosses a `return`);
otherwise `function_always_returns` is `False` and the stage reports its one
diagnostic on the function. -/
theorem c6_always_returns_characterized (body : List Stmt) (fname : String) :
    ((build body).functionAlwaysReturns = false ↔
      Relation.ReflTransGen ((build body).stepAvoidingReturn)
        (build body).entry (build body).exit) ∧
    (returnDiags fname (build body) = [] ↔
      ¬ Relation.ReflTransGen ((build body).stepAvoidingReturn)
        (build body).entry (build body).exit) := by
  have hiff := functionAlwaysReturns_iff (build body) (build_inv body)
  refine ⟨hiff, ?_, ?_⟩
  · intro hnil hpath
    have hfalse := hiff.mpr hpath
    rw [returnDiags, hfalse] at hnil
    simp at hnil
  · intro hnot
    have htrue : (build body).functionAlwaysReturns = true := by
      cases hres : (build body).functionAlwaysReturns
      · exact absurd (hiff.mp hres) hnot
      · rfl
    rw [returnDiags, htrue]
    rfl

end MiniC
